import Mathlib

/-!
# Decaying window average (`dwa.go`)

A shallow embedding of the `DWA` type of `src/dwa.go` and of its three
operations `NewDWA`, `Add` and `Value`, followed by the properties of the
natural-language specification that were checked against it.

Modelling conventions.

* `time.Time` and `time.Duration` are integers counting nanoseconds.  The clock
  reading that `Add` and `Value` take from `time.Now()` is an explicit argument
  `now`.  The zero `time.Time` of a fresh `DWA` is the instant `0`.  Differences
  of clock readings are taken to fit a `time.Duration` (about 292 years), so
  that `Time.Sub` does not saturate.
* `int` and `int64` are `Int`.  The running `sum` is an `int64` that the code
  updates with `+=` and `-=`; every such update is followed by `wrapInt64`, the
  two's complement reduction Go performs.  `idx` never leaves
  `0 .. sampleSize`, so no reduction is applied to it.
* A run-time panic (index out of range, integer division by zero) is the result
  `none`; a panic of `NewDWA`, its own or the one of `make`, is `Except.error`
  carrying the panic message.
* `Value` returns `float64(d.sum) / float64(len(d.values))`.  Floating point is
  not modelled: the result is the exact rational quotient `float64Div`, of which
  Go returns the `float64` rounding.
* The mutex only serialises calls; a call is one atomic step of the model.
-/

set_option maxRecDepth 100000

namespace Dwa

/-- Two's complement reduction of an integer to the range of Go's `int64`. -/
def wrapInt64 (x : Int) : Int := (x + 2 ^ 63) % 2 ^ 64 - 2 ^ 63

/-- Membership in the range of Go's `int64`. -/
def IsInt64 (x : Int) : Prop := -(2 ^ 63) ≤ x ∧ x < 2 ^ 63

instance (x : Int) : Decidable (IsInt64 x) := by
  unfold IsInt64; infer_instance

/-- The exact quotient that `float64(sum) / float64(len)` rounds to `float64`. -/
def float64Div (sum : Int) (len : Nat) : ℚ := (sum : ℚ) / (len : ℚ)

/-- The struct `DWA` of `dwa.go`, without its mutex. -/
structure DWA where
  lastUpdate : Int
  decayPeriod : Int
  idx : Int
  sampleSize : Int
  values : List Int
  sum : Int
  deriving DecidableEq, Repr

/-- The value of the Go runtime's constant `maxAlloc` on 64-bit Linux, `2 ^ 48`
bytes; the examples are evaluated with it. -/
def maxAlloc64 : Nat := 281474976710656

/-- The check of the Go runtime for `make([]int64, 0, cap)` on a 64-bit
platform: the call panics when the size in bytes `8 * cap` does not fit a
`uintptr` or exceeds the runtime's constant `maxAlloc`, which depends on the
platform and is a parameter here.  An allocation that passes the check is taken
to succeed: running out of memory is a fatal error of the process, not a
panic. -/
def makeslice (maxAlloc : Nat) (cap : Int) : Except String (List Int) :=
  if cap < 0 ∨ 2 ^ 64 ≤ 8 * cap ∨ (maxAlloc : Int) < 8 * cap then
    Except.error "makeslice: cap out of range"
  else
    Except.ok []

/-- `NewDWA`: panics on a non-positive sample size and on a negative decay
period, then allocates the slice with `make([]int64, 0, sampleSize)`, which
panics on a capacity the runtime refuses, and otherwise returns the initialised
`DWA` (empty slice, zero fields). -/
def NewDWA (maxAlloc : Nat) (sampleSize : Int) (decayPeriod : Int) : Except String DWA :=
  if sampleSize < 1 then
    Except.error "sample size should be positive"
  else if decayPeriod < 0 then
    Except.error "decay period cannot be negative"
  else
    match makeslice maxAlloc sampleSize with
    | Except.error msg => Except.error msg
    | Except.ok values =>
      Except.ok
        { lastUpdate := 0
          decayPeriod := decayPeriod
          idx := 0
          sampleSize := sampleSize
          values := values
          sum := 0 }

/-- One iteration of the `for _, v := range values` loop of `Add`. -/
def addValue (d : DWA) (v : Int) : Option DWA :=
  if d.idx < d.sampleSize ∧ (d.values.length : Int) ≤ d.idx then
    some { d with
      values := d.values ++ [v]
      idx := d.idx + 1
      sum := wrapInt64 (d.sum + v) }
  else if d.sampleSize = 0 then
    none
  else
    let i := Int.tmod d.idx d.sampleSize
    if 0 ≤ i ∧ i < (d.values.length : Int) then
      some { d with
        idx := i + 1
        values := d.values.set i.toNat v
        sum := wrapInt64 (wrapInt64 (d.sum - d.values.getD i.toNat 0) + v) }
    else
      none

/-- `Add`: the loop over the given values, then `d.lastUpdate = time.Now()`. -/
def Add (d : DWA) (values : List Int) (now : Int) : Option DWA :=
  (values.foldlM addValue d).map fun d1 => { d1 with lastUpdate := now }

/-- One iteration of the zeroing loop `for i := 0; i < n; i++` of `Value`. -/
def decayStep (d : DWA) : Option DWA :=
  if d.sampleSize = 0 then
    none
  else
    let i := Int.tmod d.idx d.sampleSize
    if 0 ≤ i ∧ i < (d.values.length : Int) then
      some { d with
        idx := i + 1
        values := d.values.set i.toNat 0
        sum := wrapInt64 (d.sum - d.values.getD i.toNat 0) }
    else
      none

/-- The zeroing loop of `Value`, run for the given number of iterations. -/
def decayLoop : Nat → DWA → Option DWA
  | 0, d => some d
  | k + 1, d => (decayStep d).bind (decayLoop k)

/-- `Value` read at the clock reading `now`: the returned average together with
the state the call leaves behind. -/
def Value (d : DWA) (now : Int) : Option (ℚ × DWA) :=
  if d.values.length = 0 then
    some (0, d)
  else if 0 < d.decayPeriod ∧ d.lastUpdate + d.decayPeriod < now then
    let n := Int.tdiv (now - d.lastUpdate) d.decayPeriod
    if (d.values.length : Int) < n then
      some (0, { d with values := [], sum := 0, idx := 0 })
    else
      (decayLoop n.toNat d).map fun d1 =>
        (float64Div d1.sum d1.values.length,
          { d1 with lastUpdate := d1.lastUpdate + n * d1.decayPeriod })
  else
    some (float64Div d.sum d.values.length, d)

/-- A sequence of `Value` reads with no `Add` in between: the averages returned,
in order, and the final state. -/
def valueRun : DWA → List Int → Option (List ℚ × DWA)
  | d, [] => some ([], d)
  | d, now :: rest =>
    (Value d now).bind fun r =>
      (valueRun r.2 rest).map fun q => (r.1 :: q.1, q.2)

/-- The states a program can hold: built by `NewDWA`, on any platform, then
changed by calls of `Add` and `Value` that return.  The clock reading of a call
is not constrained, so the runs whose clock readings never decrease are among
these. -/
inductive Reachable : DWA → Prop
  | new (maxAlloc : Nat) (sampleSize decayPeriod : Int) (d : DWA) :
      NewDWA maxAlloc sampleSize decayPeriod = Except.ok d → Reachable d
  | add (d d1 : DWA) (values : List Int) (now : Int) :
      Reachable d → Add d values now = some d1 → Reachable d1
  | value (d d1 : DWA) (now : Int) (r : ℚ) :
      Reachable d → Value d now = some (r, d1) → Reachable d1

/-- The shape every reachable state has: a positive window, a slice no longer
than the window, the cursor at the end of a partly filled slice and in
`1 .. sampleSize` once the slice is full, and `sum` the `int64` sum of the
slice. -/
structure Inv (d : DWA) : Prop where
  size_pos : 1 ≤ d.sampleSize
  period_nonneg : 0 ≤ d.decayPeriod
  len_le : (d.values.length : Int) ≤ d.sampleSize
  idx_filling : (d.values.length : Int) < d.sampleSize → d.idx = d.values.length
  idx_full : (d.values.length : Int) = d.sampleSize → 1 ≤ d.idx ∧ d.idx ≤ d.sampleSize
  sum_eq : d.sum = wrapInt64 d.values.sum

/-- The slice read in ring order, starting at the slot the cursor points to:
the slot written longest ago comes first. -/
def ringOrder (d : DWA) : List Int := d.values.rotate d.idx.toNat

/-- The slot of the slice the cursor points to, `idx % sampleSize`. -/
def slot (d : DWA) : Nat := (Int.tmod d.idx d.sampleSize).toNat

/-- The slice with `n` slots set to zero, one after the other in ring order
from the slot `start` on: the slots `start % len`, `(start + 1) % len`, ... -/
def zeroSlots (l : List Int) (start n : Nat) : List Int :=
  (List.range n).foldl (fun acc k => acc.set ((start + k) % l.length) 0) l

/-- The integer sum of the values in the slots `zeroSlots` sets to zero. -/
def zeroedSum (l : List Int) (start n : Nat) : Int :=
  ((List.range n).map fun k => l.getD ((start + k) % l.length) 0).sum

/-- The state `dz` is the state `d` after `z` slots were zeroed from the
cursor of `d` on, with `lastUpdate` moved forward by `z` decay periods. -/
structure Decayed (d : DWA) (z : Nat) (dz : DWA) : Prop where
  inv : Inv dz
  size_eq : dz.sampleSize = d.sampleSize
  period_eq : dz.decayPeriod = d.decayPeriod
  stamp_eq : dz.lastUpdate = d.lastUpdate + z * d.decayPeriod
  values_eq : dz.values = zeroSlots d.values d.idx.toNat z
  cursor_eq : dz.idx.toNat % d.values.length = (d.idx.toNat + z) % d.values.length

/-- The rule of the specification for recording one value, in its own words:
while the buffer has not reached `capacity` the value is appended, `sum += value`
and the cursor advances; once the buffer is full the value overwrites the slot
`cursor mod capacity` (`sum -= buffer[slot]; buffer[slot] = value;
sum += value`) and the cursor becomes that slot index plus one.  The test is on
the length of the buffer alone and `mod` is the mathematical remainder. -/
def addValueSpec (d : DWA) (v : Int) : DWA :=
  if (d.values.length : Int) < d.sampleSize then
    { d with
      values := d.values ++ [v]
      sum := wrapInt64 (d.sum + v)
      idx := d.idx + 1 }
  else
    { d with
      sum := wrapInt64 (wrapInt64 (d.sum - d.values.getD (d.idx % d.sampleSize).toNat 0) + v)
      values := d.values.set (d.idx % d.sampleSize).toNat v
      idx := ((d.idx % d.sampleSize).toNat : Int) + 1 }

/-- The variant of `Value` the specification compares the reset branch with:
where `Value` clears the buffer, the zeroing loop runs for all `n` periods
instead, one slot at a time, so that the buffer keeps its length and
`lastUpdate` moves forward by `n * decayPeriod`. -/
def valueBySlots (d : DWA) (now : Int) : Option (ℚ × DWA) :=
  if d.values.length = 0 then
    some (0, d)
  else if 0 < d.decayPeriod ∧ d.lastUpdate + d.decayPeriod < now then
    let n := Int.tdiv (now - d.lastUpdate) d.decayPeriod
    (decayLoop n.toNat d).map fun d1 =>
      (float64Div d1.sum d1.values.length,
        { d1 with lastUpdate := d1.lastUpdate + n * d1.decayPeriod })
  else
    some (float64Div d.sum d.values.length, d)

/-- A call of the interface: `Add` of some values or a `Value` read, with the
clock reading of the call. -/
inductive Call where
  | add (values : List Int) (now : Int)
  | value (now : Int)

/-- A sequence of `Add` and `Value` calls: the numbers the `Value` calls return,
in order, and the final state. -/
def callRun : DWA → List Call → Option (List ℚ × DWA)
  | d, [] => some ([], d)
  | d, Call.add values now :: rest =>
    (Add d values now).bind fun d1 => callRun d1 rest
  | d, Call.value now :: rest =>
    (Value d now).bind fun r =>
      (callRun r.2 rest).map fun q => (r.1 :: q.1, q.2)

/-- A state of the invariant whose buffer is empty or full and holds only
zeros. -/
structure AllZero (d : DWA) : Prop where
  inv : Inv d
  zero : ∀ x ∈ d.values, x = 0
  shape : d.values = [] ∨ (d.values.length : Int) = d.sampleSize

/-- The last `c` elements of a list (the whole list when it is shorter). -/
def lastN (c : Nat) (l : List Int) : List Int := l.drop (l.length - c)

/-- A sequence of `Add` calls, each with its values and its clock reading. -/
def addRun (d : DWA) (calls : List (List Int × Int)) : Option DWA :=
  calls.foldlM (fun d1 call => Add d1 call.1 call.2) d

/-- Two states the interface cannot tell apart: both have the invariant, the
same configuration and `lastUpdate`, and the same values when the buffer is
read in ring order from the cursor on. -/
structure RingEq (a b : DWA) : Prop where
  inv_left : Inv a
  inv_right : Inv b
  size_eq : b.sampleSize = a.sampleSize
  period_eq : b.decayPeriod = a.decayPeriod
  stamp_eq : b.lastUpdate = a.lastUpdate
  ring_eq : ringOrder b = ringOrder a

/-- The state `z` trails the state `r`: `r` is a window that is not full yet,
and the ring of `z` is the ring of `r` preceded by zeros.  Either `z` is full,
or `z` is `r` up to `lastUpdate`; once `r` holds a value, the two have the same
`lastUpdate`. -/
structure Trails (r z : DWA) : Prop where
  inv_left : Inv r
  inv_right : Inv z
  size_eq : z.sampleSize = r.sampleSize
  period_eq : z.decayPeriod = r.decayPeriod
  filling : (r.values.length : Int) < r.sampleSize
  ring : ∃ zs : List Int, (∀ x ∈ zs, x = 0) ∧
    ringOrder z = lastN r.sampleSize.toNat (zs ++ ringOrder r)
  shape : (z.values.length : Int) = z.sampleSize ∨ { z with lastUpdate := r.lastUpdate } = r
  stamp : r.values ≠ [] → z.lastUpdate = r.lastUpdate

/-- A sequence of calls in which no `Value` read is made while the window is
being refilled: `k` counts the values the `Add` calls have brought so far, a
read is allowed while `k = 0`, and once the count reaches `capacity` every
later call is allowed. -/
def noReadWhileRefilling (capacity : Int) : Nat → List Call → Prop
  | _, [] => True
  | k, Call.add values _ :: rest =>
    capacity ≤ ((k + values.length : Nat) : Int) ∨
      noReadWhileRefilling capacity (k + values.length) rest
  | k, Call.value _ :: rest => k = 0 ∧ noReadWhileRefilling capacity k rest

/-! ## Arithmetic of `int64` and of the cursor -/

theorem wrapInt64_add_left (a b : Int) :
    wrapInt64 (wrapInt64 a + b) = wrapInt64 (a + b) := by
  unfold wrapInt64; omega

theorem wrapInt64_sub_left (a b : Int) :
    wrapInt64 (wrapInt64 a - b) = wrapInt64 (a - b) := by
  unfold wrapInt64; omega

theorem wrapInt64_idem (a : Int) : wrapInt64 (wrapInt64 a) = wrapInt64 a := by
  unfold wrapInt64; omega

theorem wrapInt64_of_isInt64 (a : Int) (h : IsInt64 a) : wrapInt64 a = a := by
  unfold wrapInt64; unfold IsInt64 at h; omega

theorem wrapInt64_emod (a : Int) : wrapInt64 a % 2 ^ 64 = a % 2 ^ 64 := by
  unfold wrapInt64; omega

theorem isInt64_wrapInt64 (a : Int) : IsInt64 (wrapInt64 a) := by
  unfold wrapInt64 IsInt64; omega

theorem tmod_cursor (i c : Int) (h0 : 0 ≤ i) (h1 : i ≤ c) (hc : 1 ≤ c) :
    Int.tmod i c = if i = c then 0 else i := by
  rw [Int.tmod_eq_emod h0 (by omega)]
  split
  · subst_vars; simp
  · exact Int.emod_eq_of_lt h0 (by omega)

theorem sum_set_int (l : List Int) (i : Nat) (v : Int) (h : i < l.length) :
    (l.set i v).sum = l.sum - l.getD i 0 + v := by
  induction l generalizing i with
  | nil => simp at h
  | cons a t ih =>
    cases i with
    | zero => simp; ring
    | succ j =>
      have hj : j < t.length := by simpa using h
      have := ih j hj
      simp only [List.set_cons_succ, List.sum_cons, this]
      simp; ring

/-! ## One step of `Add` and one step of the zeroing loop -/

theorem slot_lt (d : DWA) (h : Inv d) (hfull : (d.values.length : Int) = d.sampleSize) :
    slot d < d.values.length ∧ Int.tmod d.idx d.sampleSize = (slot d : Int) := by
  obtain ⟨h1, h2⟩ := h.idx_full hfull
  have hc := h.size_pos
  have ht := tmod_cursor d.idx d.sampleSize (by omega) h2 hc
  unfold slot
  rw [ht]
  split <;> constructor <;> omega

theorem addValue_append (d : DWA) (v : Int) (h : Inv d)
    (hlt : (d.values.length : Int) < d.sampleSize) :
    addValue d v = some { d with
      values := d.values ++ [v]
      idx := d.idx + 1
      sum := wrapInt64 (d.sum + v) } := by
  have hi := h.idx_filling hlt
  unfold addValue
  rw [if_pos ⟨by omega, by omega⟩]

theorem addValue_overwrite (d : DWA) (v : Int) (h : Inv d)
    (hfull : (d.values.length : Int) = d.sampleSize) :
    addValue d v = some { d with
      idx := (slot d : Int) + 1
      values := d.values.set (slot d) v
      sum := wrapInt64 (d.sum - d.values.getD (slot d) 0 + v) } := by
  obtain ⟨h1, h2⟩ := h.idx_full hfull
  obtain ⟨hs, ht⟩ := slot_lt d h hfull
  have hc := h.size_pos
  unfold addValue
  rw [if_neg (by omega), if_neg (by omega)]
  simp only [ht]
  rw [if_pos ⟨by omega, by omega⟩]
  simp [wrapInt64_add_left]

theorem decayStep_full (d : DWA) (h : Inv d)
    (hfull : (d.values.length : Int) = d.sampleSize) :
    decayStep d = some { d with
      idx := (slot d : Int) + 1
      values := d.values.set (slot d) 0
      sum := wrapInt64 (d.sum - d.values.getD (slot d) 0) } := by
  obtain ⟨hs, ht⟩ := slot_lt d h hfull
  have hc := h.size_pos
  unfold decayStep
  rw [if_neg (by omega)]
  simp only [ht]
  rw [if_pos ⟨by omega, by omega⟩]
  simp

theorem decayStep_not_full (d : DWA) (h : Inv d)
    (hlt : (d.values.length : Int) < d.sampleSize) : decayStep d = none := by
  have hi := h.idx_filling hlt
  have hc := h.size_pos
  have ht := tmod_cursor d.idx d.sampleSize (by omega) (by omega) hc
  unfold decayStep
  rw [if_neg (by omega)]
  simp only [ht]
  rw [if_neg (by omega)]

theorem inv_overwrite (d : DWA) (v : Int) (h : Inv d)
    (hfull : (d.values.length : Int) = d.sampleSize) :
    Inv { d with
      idx := (slot d : Int) + 1
      values := d.values.set (slot d) v
      sum := wrapInt64 (d.sum - d.values.getD (slot d) 0 + v) } := by
  obtain ⟨hs, ht⟩ := slot_lt d h hfull
  constructor
  · exact h.size_pos
  · exact h.period_nonneg
  · simpa using h.len_le
  · intro hlt
    simp at hlt
    omega
  · intro _
    simp
    omega
  · simp only
    rw [sum_set_int _ _ _ hs, h.sum_eq]
    rw [show wrapInt64 d.values.sum - d.values.getD (slot d) 0 + v
      = wrapInt64 d.values.sum + (v - d.values.getD (slot d) 0) by ring, wrapInt64_add_left]
    congr 1; ring

theorem inv_append (d : DWA) (v : Int) (h : Inv d)
    (hlt : (d.values.length : Int) < d.sampleSize) :
    Inv { d with
      values := d.values ++ [v]
      idx := d.idx + 1
      sum := wrapInt64 (d.sum + v) } := by
  have hi := h.idx_filling hlt
  constructor
  · exact h.size_pos
  · exact h.period_nonneg
  · simp; omega
  · intro _
    simp; omega
  · intro _
    simp; omega
  · simp only
    rw [h.sum_eq, wrapInt64_add_left]
    simp

theorem addValue_inv (d : DWA) (v : Int) (h : Inv d) :
    ∃ d1, addValue d v = some d1 ∧ Inv d1 := by
  rcases lt_or_eq_of_le h.len_le with hlt | hfull
  · exact ⟨_, addValue_append d v h hlt, inv_append d v h hlt⟩
  · exact ⟨_, addValue_overwrite d v h hfull, inv_overwrite d v h hfull⟩

/-! ## The ring order under `Add` -/

theorem rotate_set_succ (l : List Int) (s : Nat) (v : Int) (hs : s < l.length) :
    (l.set s v).rotate (s + 1) = (l.rotate s ++ [v]).drop 1 := by
  rw [List.rotate_eq_drop_append_take (by simp; omega),
    List.rotate_eq_drop_append_take (by omega)]
  rw [List.drop_set_of_lt v l (Nat.lt_succ_self s)]
  have htake : List.take (s + 1) (l.set s v) = List.take s l ++ [v] := by
    rw [List.set_eq_take_append_cons_drop, if_pos hs]
    have hlen : (List.take s l).length = s := by simp; omega
    rw [List.take_append_eq_append_take, hlen]
    simp
  rw [htake]
  have hne : List.drop s l = l[s] :: List.drop (s + 1) l := List.drop_eq_getElem_cons hs
  rw [hne]
  simp only [List.cons_append, List.drop_succ_cons, List.drop_zero, List.append_assoc]

theorem ringOrder_eq_rotate_slot (d : DWA) (h : Inv d)
    (hfull : (d.values.length : Int) = d.sampleSize) :
    ringOrder d = d.values.rotate (slot d) := by
  obtain ⟨h1, h2⟩ := h.idx_full hfull
  have ht := tmod_cursor d.idx d.sampleSize (by omega) h2 h.size_pos
  unfold ringOrder slot
  rw [ht]
  split
  · rename_i heq
    have : d.idx.toNat = d.values.length := by omega
    rw [this, List.rotate_length]
    simp
  · rfl

theorem ringOrder_not_full (d : DWA) (h : Inv d)
    (hlt : (d.values.length : Int) < d.sampleSize) : ringOrder d = d.values := by
  have hi := h.idx_filling hlt
  unfold ringOrder
  have : d.idx.toNat = d.values.length := by omega
  rw [this, List.rotate_length]

theorem length_ringOrder (d : DWA) : (ringOrder d).length = d.values.length := by
  simp [ringOrder]

theorem lastN_of_length_le (c : Nat) (l : List Int) (h : l.length ≤ c) : lastN c l = l := by
  unfold lastN
  rw [Nat.sub_eq_zero_of_le h]
  rfl

theorem length_lastN (c : Nat) (l : List Int) : (lastN c l).length = min l.length c := by
  unfold lastN
  simp
  omega

theorem lastN_append_lastN (c : Nat) (l r : List Int) :
    lastN c (lastN c l ++ r) = lastN c (l ++ r) := by
  unfold lastN
  rw [← @List.drop_append_of_le_length _ l r _ (Nat.sub_le l.length c)]
  rw [List.drop_drop]
  congr 1
  simp
  omega

/-- One `Add` step on a state of the invariant: it returns, keeps the
invariant and the configuration, and shifts the new value into the ring. -/
theorem addValue_spec (d : DWA) (v : Int) (h : Inv d) :
    ∃ d1, addValue d v = some d1 ∧ Inv d1 ∧ d1.sampleSize = d.sampleSize ∧
      d1.decayPeriod = d.decayPeriod ∧ d1.lastUpdate = d.lastUpdate ∧
      ringOrder d1 = lastN d.sampleSize.toNat (ringOrder d ++ [v]) := by
  have hc := h.size_pos
  rcases lt_or_eq_of_le h.len_le with hlt | hfull
  · refine ⟨_, addValue_append d v h hlt, inv_append d v h hlt, rfl, rfl, rfl, ?_⟩
    have hi := h.idx_filling hlt
    rw [ringOrder_not_full d h hlt, lastN_of_length_le _ _ (by simp; omega)]
    unfold ringOrder
    have : (d.idx + 1).toNat = (d.values ++ [v]).length := by simp; omega
    simp only [this, List.rotate_length]
  · obtain ⟨hs, _⟩ := slot_lt d h hfull
    refine ⟨_, addValue_overwrite d v h hfull, inv_overwrite d v h hfull, rfl, rfl, rfl, ?_⟩
    rw [ringOrder_eq_rotate_slot d h hfull]
    have h1 : ((slot d : Int) + 1).toNat = slot d + 1 := by omega
    simp only [ringOrder, h1]
    rw [rotate_set_succ _ _ _ hs]
    unfold lastN
    congr 1
    simp
    omega

/-- The loop of `Add` on a state of the invariant: it returns for every list
of values, and the ring then holds the last `sampleSize` values of what it held
before followed by the new values. -/
theorem foldlM_addValue_spec (vs : List Int) (d : DWA) (h : Inv d) :
    ∃ d1, vs.foldlM addValue d = some d1 ∧ Inv d1 ∧ d1.sampleSize = d.sampleSize ∧
      d1.decayPeriod = d.decayPeriod ∧ d1.lastUpdate = d.lastUpdate ∧
      ringOrder d1 = lastN d.sampleSize.toNat (ringOrder d ++ vs) := by
  induction vs generalizing d with
  | nil =>
    refine ⟨d, rfl, h, rfl, rfl, rfl, ?_⟩
    rw [List.append_nil, lastN_of_length_le]
    rw [length_ringOrder]
    have := h.len_le
    omega
  | cons v t ih =>
    obtain ⟨d1, h1, hinv1, hs1, hp1, hl1, hr1⟩ := addValue_spec d v h
    obtain ⟨d2, h2, hinv2, hs2, hp2, hl2, hr2⟩ := ih d1 hinv1
    refine ⟨d2, ?_, hinv2, by omega, by omega, by omega, ?_⟩
    · rw [List.foldlM_cons, h1]
      exact h2
    · rw [hr2, hr1, hs1, lastN_append_lastN]
      simp

/-- `Add` on a state of the invariant. -/
theorem add_spec (d : DWA) (vs : List Int) (now : Int) (h : Inv d) :
    ∃ d1, Add d vs now = some d1 ∧ Inv d1 ∧ d1.sampleSize = d.sampleSize ∧
      d1.decayPeriod = d.decayPeriod ∧ d1.lastUpdate = now ∧
      ringOrder d1 = lastN d.sampleSize.toNat (ringOrder d ++ vs) := by
  obtain ⟨d1, h1, hinv, hs, hp, _, hr⟩ := foldlM_addValue_spec vs d h
  refine ⟨{ d1 with lastUpdate := now }, ?_, ?_, hs, hp, rfl, hr⟩
  · simp [Add, h1]
  · exact ⟨hinv.size_pos, hinv.period_nonneg, hinv.len_le, hinv.idx_filling,
      hinv.idx_full, hinv.sum_eq⟩

/-! ## The zeroing loop of `Value` -/

theorem decayLoop_succ_last (n : Nat) (d : DWA) :
    decayLoop (n + 1) d = (decayLoop n d).bind decayStep := by
  induction n generalizing d with
  | zero =>
    cases hstep : decayStep d <;> simp [decayLoop, hstep]
  | succ k ih =>
    rw [decayLoop]
    cases hstep : decayStep d with
    | none => simp [decayLoop, hstep]
    | some d1 =>
      simp only [Option.some_bind]
      rw [ih d1]
      simp [decayLoop, hstep]

theorem zeroSlots_succ (l : List Int) (start n : Nat) :
    zeroSlots l start (n + 1) = (zeroSlots l start n).set ((start + n) % l.length) 0 := by
  unfold zeroSlots
  rw [List.range_succ, List.foldl_append]
  rfl

theorem length_zeroSlots (l : List Int) (start n : Nat) :
    (zeroSlots l start n).length = l.length := by
  induction n with
  | zero => rfl
  | succ k ih => rw [zeroSlots_succ, List.length_set, ih]

theorem slot_eq_mod (d : DWA) (h : Inv d)
    (hfull : (d.values.length : Int) = d.sampleSize) :
    slot d = d.idx.toNat % d.values.length := by
  obtain ⟨h1, h2⟩ := h.idx_full hfull
  have ht := tmod_cursor d.idx d.sampleSize (by omega) h2 h.size_pos
  unfold slot
  rw [ht]
  split
  · have : d.idx.toNat = d.values.length := by omega
    rw [this]
    simp
  · rw [Nat.mod_eq_of_lt (by omega)]

/-- The zeroing loop on a full buffer: it returns for every number of
iterations, keeps the invariant, the length and the configuration, zeroes the
slots from the cursor on, and leaves the cursor one past the last slot it
zeroed. -/
theorem decayLoop_full (n : Nat) (d : DWA) (h : Inv d)
    (hfull : (d.values.length : Int) = d.sampleSize) :
    ∃ d1, decayLoop n d = some d1 ∧ Inv d1 ∧
      d1.sampleSize = d.sampleSize ∧ d1.decayPeriod = d.decayPeriod ∧
      d1.lastUpdate = d.lastUpdate ∧
      d1.values = zeroSlots d.values d.idx.toNat n ∧
      d1.idx.toNat % d.values.length = (d.idx.toNat + n) % d.values.length ∧
      (1 ≤ n → d1.idx = ((d.idx.toNat + (n - 1)) % d.values.length : Nat) + 1) := by
  induction n with
  | zero =>
    exact ⟨d, rfl, h, rfl, rfl, rfl, rfl, rfl, by omega⟩
  | succ k ih =>
    obtain ⟨d1, hloop, hinv, hs, hp, hl, hv, hi, _⟩ := ih
    have hlen : d1.values.length = d.values.length := by rw [hv, length_zeroSlots]
    have hfull1 : (d1.values.length : Int) = d1.sampleSize := by omega
    have hslot : slot d1 = (d.idx.toNat + k) % d.values.length := by
      rw [slot_eq_mod d1 hinv hfull1, hlen, hi]
    refine ⟨_, ?_, inv_overwrite d1 0 hinv hfull1, hs, hp, hl, ?_, ?_, ?_⟩
    · rw [decayLoop_succ_last, hloop, Option.some_bind, decayStep_full d1 hinv hfull1]
      simp
    · simp only
      rw [zeroSlots_succ, hslot, hv]
    · simp only
      have : ((slot d1 : Int) + 1).toNat = slot d1 + 1 := by omega
      rw [this, hslot, Nat.add_mod, Nat.mod_mod, ← Nat.add_mod]
      rfl
    · intro _
      simp only [hslot]
      simp

/-- The zeroing loop on a partly filled buffer panics as soon as it runs. -/
theorem decayLoop_not_full (n : Nat) (d : DWA) (h : Inv d)
    (hlt : (d.values.length : Int) < d.sampleSize) (hn : 1 ≤ n) :
    decayLoop n d = none := by
  obtain ⟨k, rfl⟩ : ∃ k, n = k + 1 := ⟨n - 1, by omega⟩
  rw [decayLoop, decayStep_not_full d h hlt]
  rfl

theorem inv_of_lastUpdate (d : DWA) (t : Int) (h : Inv d) :
    Inv { d with lastUpdate := t } :=
  ⟨h.size_pos, h.period_nonneg, h.len_le, h.idx_filling, h.idx_full, h.sum_eq⟩

theorem inv_reset (d : DWA) (h : Inv d) :
    Inv { d with values := [], sum := 0, idx := 0 } := by
  have hc := h.size_pos
  constructor
  · exact hc
  · exact h.period_nonneg
  · simp; omega
  · intro _; rfl
  · intro hfull
    simp at hfull
    omega
  · rfl

theorem decayLoop_inv (n : Nat) (d d1 : DWA) (h : Inv d)
    (hrun : decayLoop n d = some d1) : Inv d1 := by
  rcases lt_or_eq_of_le h.len_le with hlt | hfull
  · rcases Nat.eq_zero_or_pos n with h0 | hpos
    · subst h0
      simp only [decayLoop, Option.some.injEq] at hrun
      exact hrun ▸ h
    · rw [decayLoop_not_full n d h hlt hpos] at hrun
      cases hrun
  · obtain ⟨d2, h2, hinv, _⟩ := decayLoop_full n d h hfull
    rw [h2] at hrun
    cases hrun
    exact hinv

/-- `Value` keeps the invariant whenever it returns. -/
theorem value_inv (d d1 : DWA) (now : Int) (r : ℚ) (h : Inv d)
    (hrun : Value d now = some (r, d1)) : Inv d1 := by
  unfold Value at hrun
  split at hrun
  · cases hrun; exact h
  · split at hrun
    · simp only at hrun
      split at hrun
      · cases hrun; exact inv_reset d h
      · cases hloop : decayLoop (Int.tdiv (now - d.lastUpdate) d.decayPeriod).toNat d with
        | none => simp [hloop] at hrun
        | some d2 =>
          simp only [hloop, Option.map_some', Option.some.injEq, Prod.mk.injEq] at hrun
          obtain ⟨_, rfl⟩ := hrun
          exact inv_of_lastUpdate d2 _ (decayLoop_inv _ d d2 h hloop)
    · cases hrun; exact h

theorem newDWA_ok (maxAlloc : Nat) (sampleSize decayPeriod : Int) (d : DWA) :
    NewDWA maxAlloc sampleSize decayPeriod = Except.ok d ↔
      (1 ≤ sampleSize ∧ 0 ≤ decayPeriod ∧ 8 * sampleSize < 2 ^ 64 ∧
        8 * sampleSize ≤ (maxAlloc : Int) ∧
        d = { lastUpdate := 0
              decayPeriod := decayPeriod
              idx := 0
              sampleSize := sampleSize
              values := []
              sum := 0 }) := by
  unfold NewDWA makeslice
  by_cases h1 : sampleSize < 1
  · rw [if_pos h1]
    constructor
    · intro h
      cases h
    · intro h
      omega
  · rw [if_neg h1]
    by_cases h2 : decayPeriod < 0
    · rw [if_pos h2]
      constructor
      · intro h
        cases h
      · intro h
        omega
    · rw [if_neg h2]
      by_cases h3 : sampleSize < 0 ∨ 2 ^ 64 ≤ 8 * sampleSize ∨ (maxAlloc : Int) < 8 * sampleSize
      · rw [if_pos h3]
        constructor
        · intro h
          cases h
        · intro h
          omega
      · rw [if_neg h3]
        constructor
        · intro h
          cases h
          exact ⟨by omega, by omega, by omega, by omega, rfl⟩
        · intro h
          rw [h.2.2.2.2]

theorem newDWA_inv (maxAlloc : Nat) (sampleSize decayPeriod : Int) (d : DWA)
    (h : NewDWA maxAlloc sampleSize decayPeriod = Except.ok d) : Inv d := by
  obtain ⟨h1, h2, _, _, rfl⟩ := (newDWA_ok maxAlloc sampleSize decayPeriod d).mp h
  constructor
  · exact h1
  · exact h2
  · simp; omega
  · intro _; rfl
  · intro hfull
    simp at hfull
    omega
  · rfl

/-- Every reachable state has the invariant. -/
theorem reachable_inv (d : DWA) (h : Reachable d) : Inv d := by
  induction h with
  | new m c p d hnew => exact newDWA_inv m c p d hnew
  | add d d1 vs now _ hadd ih =>
    obtain ⟨d2, h2, hinv, _⟩ := add_spec d vs now ih
    rw [h2] at hadd
    cases hadd
    exact hinv
  | value d d1 now r _ hval ih => exact value_inv d d1 now r ih hval

/-! ## The branches of `Value` -/

theorem value_empty (d : DWA) (now : Int) (h : d.values = []) : Value d now = some (0, d) := by
  unfold Value
  rw [if_pos (by simp [h])]

theorem value_no_decay (d : DWA) (now : Int) (hne : d.values ≠ [])
    (h : ¬ (0 < d.decayPeriod ∧ d.lastUpdate + d.decayPeriod < now)) :
    Value d now = some (float64Div d.sum d.values.length, d) := by
  unfold Value
  rw [if_neg (by simpa using hne), if_neg h]

theorem tdiv_elapsed (d : DWA) (now : Int) (hp : 0 < d.decayPeriod)
    (hdue : d.lastUpdate + d.decayPeriod < now) :
    Int.tdiv (now - d.lastUpdate) d.decayPeriod = (now - d.lastUpdate) / d.decayPeriod :=
  Int.tdiv_eq_ediv (by omega) (by omega)

theorem value_reset (d : DWA) (now : Int) (hne : d.values ≠ [])
    (hp : 0 < d.decayPeriod) (hdue : d.lastUpdate + d.decayPeriod < now)
    (hn : (d.values.length : Int) < (now - d.lastUpdate) / d.decayPeriod) :
    Value d now = some (0, { d with values := [], sum := 0, idx := 0 }) := by
  unfold Value
  rw [if_neg (by simpa using hne), if_pos ⟨hp, hdue⟩]
  simp only [tdiv_elapsed d now hp hdue]
  rw [if_pos hn]

theorem value_decay (d : DWA) (now : Int) (hne : d.values ≠ [])
    (hp : 0 < d.decayPeriod) (hdue : d.lastUpdate + d.decayPeriod < now)
    (hn : (now - d.lastUpdate) / d.decayPeriod ≤ (d.values.length : Int)) :
    Value d now =
      (decayLoop ((now - d.lastUpdate) / d.decayPeriod).toNat d).map fun d1 =>
        (float64Div d1.sum d1.values.length,
          { d1 with
            lastUpdate := d1.lastUpdate + (now - d.lastUpdate) / d.decayPeriod * d1.decayPeriod }) := by
  unfold Value
  rw [if_neg (by simpa using hne), if_pos ⟨hp, hdue⟩]
  simp only [tdiv_elapsed d now hp hdue]
  rw [if_neg (by omega)]

theorem elapsed_div_pos (d : DWA) (now : Int) (hp : 0 < d.decayPeriod)
    (hdue : d.lastUpdate + d.decayPeriod < now) :
    1 ≤ (now - d.lastUpdate) / d.decayPeriod := by
  have h : d.decayPeriod ≤ now - d.lastUpdate := by omega
  have := Int.ediv_le_ediv hp h
  rwa [Int.ediv_self (by omega)] at this

theorem lastN_append_of_le (c : Nat) (l r : List Int) (h : c ≤ r.length) :
    lastN c (l ++ r) = lastN c r := by
  unfold lastN
  have h1 : (l ++ r).length - c = l.length + (r.length - c) := by simp; omega
  rw [h1, ← List.drop_drop, List.drop_left]

theorem sum_ringOrder (d : DWA) : (ringOrder d).sum = d.values.sum :=
  (List.rotate_perm d.values d.idx.toNat).sum_eq

/-- The loop of `Add` while there is room: with the cursor at the end of the
slice and room for all the values, every value is appended. -/
theorem foldlM_addValue_fill (vs : List Int) (d : DWA)
    (hi : d.idx = (d.values.length : Int))
    (hroom : (d.values.length : Int) + vs.length ≤ d.sampleSize)
    (hsum : wrapInt64 d.sum = d.sum) :
    vs.foldlM addValue d = some { d with
      values := d.values ++ vs
      idx := d.idx + vs.length
      sum := wrapInt64 (d.sum + vs.sum) } := by
  induction vs generalizing d with
  | nil => simp [hsum]
  | cons v t ih =>
    have hlen : ((v :: t).length : Int) = t.length + 1 := by simp
    rw [hlen] at hroom
    have hstep : addValue d v = some { d with
        values := d.values ++ [v]
        idx := d.idx + 1
        sum := wrapInt64 (d.sum + v) } := by
      unfold addValue
      rw [if_pos ⟨by omega, by omega⟩]
    rw [List.foldlM_cons, hstep]
    have := ih { d with
        values := d.values ++ [v]
        idx := d.idx + 1
        sum := wrapInt64 (d.sum + v) } (by simp; omega) (by simp; omega)
        (wrapInt64_idem _)
    simp only [Option.some_bind, Option.bind_eq_bind] at this ⊢
    rw [this]
    simp only [List.append_assoc, List.singleton_append, List.length_cons, List.sum_cons,
      wrapInt64_add_left, Option.some.injEq]
    congr 1
    · push_cast; ring
    · congr 1; ring

/-- A sequence of `Add` calls while there is room appends all their values. -/
theorem addRun_fill (calls : List (List Int × Int)) (d : DWA)
    (hi : d.idx = (d.values.length : Int))
    (hroom : (d.values.length : Int) + (calls.map Prod.fst).flatten.length ≤ d.sampleSize)
    (hsum : wrapInt64 d.sum = d.sum) :
    ∃ d1, addRun d calls = some d1 ∧
      d1.values = d.values ++ (calls.map Prod.fst).flatten ∧
      d1.sum = wrapInt64 (d.sum + (calls.map Prod.fst).flatten.sum) ∧
      d1.decayPeriod = d.decayPeriod ∧ d1.sampleSize = d.sampleSize := by
  induction calls generalizing d with
  | nil => exact ⟨d, rfl, by simp, by simp [hsum], rfl, rfl⟩
  | cons call rest ih =>
    simp only [List.map_cons, List.flatten_cons, List.length_append] at hroom
    have hfill := foldlM_addValue_fill call.1 d hi (by omega) hsum
    have hadd : Add d call.1 call.2 = some { d with
        values := d.values ++ call.1
        idx := d.idx + call.1.length
        sum := wrapInt64 (d.sum + call.1.sum)
        lastUpdate := call.2 } := by
      simp [Add, hfill]
    obtain ⟨d1, hrun, hv, hs, hp, hc⟩ := ih { d with
        values := d.values ++ call.1
        idx := d.idx + call.1.length
        sum := wrapInt64 (d.sum + call.1.sum)
        lastUpdate := call.2 } (by simp; omega)
        (by simp only [List.length_append]; push_cast; omega)
        (wrapInt64_idem _)
    refine ⟨d1, ?_, ?_, ?_, hp, hc⟩
    · unfold addRun at hrun ⊢
      rw [List.foldlM_cons, hadd]
      exact hrun
    · rw [hv]
      simp
    · rw [hs]
      simp only [List.map_cons, List.flatten_cons, List.sum_append, wrapInt64_add_left]
      congr 1; ring

/-! ## The slots the zeroing loop touches -/

theorem getD_set_zero (l : List Int) (m j : Nat) :
    (l.set m 0).getD j 0 = if m = j then 0 else l.getD j 0 := by
  simp only [List.getD_eq_getElem?_getD, List.getElem?_set]
  by_cases hmj : m = j
  · subst hmj
    by_cases hm : m < l.length
    · simp [hm]
    · simp [hm]
  · simp [hmj]

theorem zeroSlots_getD_of_mem (l : List Int) (start n j : Nat)
    (h : ∃ k, k < n ∧ j = (start + k) % l.length) :
    (zeroSlots l start n).getD j 0 = 0 := by
  induction n with
  | zero =>
    obtain ⟨k, hk, _⟩ := h
    omega
  | succ m ih =>
    rw [zeroSlots_succ, getD_set_zero]
    split
    · rfl
    · rename_i hne
      apply ih
      obtain ⟨k, hk, hj⟩ := h
      refine ⟨k, ?_, hj⟩
      rcases Nat.lt_succ_iff_lt_or_eq.mp hk with hlt | heq
      · exact hlt
      · subst heq
        exact absurd hj.symm hne

theorem zeroSlots_getD_of_not_mem (l : List Int) (start n j : Nat)
    (h : ¬ ∃ k, k < n ∧ j = (start + k) % l.length) :
    (zeroSlots l start n).getD j 0 = l.getD j 0 := by
  induction n with
  | zero => rfl
  | succ m ih =>
    rw [zeroSlots_succ, getD_set_zero]
    split
    · rename_i heq
      exact absurd ⟨m, Nat.lt_succ_self m, heq.symm⟩ h
    · apply ih
      rintro ⟨k, hk, hj⟩
      exact h ⟨k, Nat.lt_succ_of_lt hk, hj⟩

theorem mod_add_ne (c s k n : Nat) (hk : k < n) (hn : n < c) :
    (s + n) % c ≠ (s + k) % c := by
  intro h
  have h1 : n ≡ k [MOD c] := Nat.ModEq.add_left_cancel' s h
  have h2 : n % c = k % c := h1
  rw [Nat.mod_eq_of_lt hn, Nat.mod_eq_of_lt (by omega)] at h2
  omega

theorem zeroedSum_succ (l : List Int) (start n : Nat) :
    zeroedSum l start (n + 1) =
      zeroedSum l start n + l.getD ((start + n) % l.length) 0 := by
  unfold zeroedSum
  rw [List.range_succ, List.map_append, List.sum_append]
  simp

theorem sum_zeroSlots (l : List Int) (start n : Nat) (hn : n ≤ l.length) :
    (zeroSlots l start n).sum = l.sum - zeroedSum l start n := by
  induction n with
  | zero => simp [zeroSlots, zeroedSum]
  | succ m ih =>
    have hlen : (start + m) % l.length < (zeroSlots l start m).length := by
      rw [length_zeroSlots]
      exact Nat.mod_lt _ (by omega)
    rw [zeroSlots_succ, sum_set_int _ _ _ hlen, ih (by omega), zeroedSum_succ,
      zeroSlots_getD_of_not_mem]
    · ring
    · rintro ⟨k, hk, hj⟩
      exact mod_add_ne l.length start k m hk (by omega) hj

/-- `Value` on a full buffer when decay is due for `n ≤ len(values)` periods:
it returns, having zeroed `n` slots from the cursor on and moved `lastUpdate`
forward by `n` periods. -/
theorem value_full_decay (d : DWA) (now : Int) (n : Nat) (h : Inv d)
    (hfull : (d.values.length : Int) = d.sampleSize)
    (hp : 0 < d.decayPeriod) (hdue : d.lastUpdate + d.decayPeriod < now)
    (hn : (n : Int) = (now - d.lastUpdate) / d.decayPeriod)
    (hle : n ≤ d.values.length) :
    ∃ d1, Value d now = some (float64Div d1.sum d.values.length, d1) ∧ Inv d1 ∧
      d1.sampleSize = d.sampleSize ∧ d1.decayPeriod = d.decayPeriod ∧
      d1.lastUpdate = d.lastUpdate + n * d.decayPeriod ∧
      d1.values = zeroSlots d.values d.idx.toNat n ∧
      d1.idx.toNat % d.values.length = (d.idx.toNat + n) % d.values.length ∧
      d1.idx = ((d.idx.toNat + (n - 1)) % d.values.length : Nat) + 1 := by
  have hc := h.size_pos
  have hne : d.values ≠ [] := by
    intro h0
    rw [h0] at hfull
    simp at hfull
    omega
  have h1 := elapsed_div_pos d now hp hdue
  obtain ⟨d1, hloop, hinv, hs, hpd, hl, hv, hi, hidx⟩ := decayLoop_full n d h hfull
  have hlen : d1.values.length = d.values.length := by rw [hv, length_zeroSlots]
  refine ⟨{ d1 with lastUpdate := d1.lastUpdate + n * d1.decayPeriod }, ?_,
    inv_of_lastUpdate d1 _ hinv, hs, hpd, by simp only; rw [hl, hpd], hv, hi, hidx (by omega)⟩
  rw [value_decay d now hne hp hdue (by omega), ← hn]
  simp [hloop, hlen]

/-! ## Reads that follow one another with no `Add` in between -/

theorem zeroSlots_add (l : List Int) (s s1 a b : Nat)
    (h : s1 % l.length = (s + a) % l.length) :
    zeroSlots (zeroSlots l s a) s1 b = zeroSlots l s (a + b) := by
  induction b with
  | zero => rfl
  | succ m ih =>
    rw [zeroSlots_succ, ih, ← Nat.add_assoc, zeroSlots_succ, length_zeroSlots]
    congr 1
    rw [Nat.add_mod, h, ← Nat.add_mod, Nat.add_assoc]

theorem decayed_refl (d : DWA) (h : Inv d) : Decayed d 0 d :=
  ⟨h, rfl, rfl, by simp, rfl, rfl⟩

/-- One read in a sequence of reads on a full buffer: it returns, and leaves a
state in which some more slots are zeroed, `lastUpdate` not after the read and
at most one decay period before it. -/
theorem value_decayed_step (d dz : DWA) (z : Nat) (now : Int) (h : Inv d)
    (hfull : (d.values.length : Int) = d.sampleSize) (hp : 0 < d.decayPeriod)
    (hdz : Decayed d z dz) (hnow : dz.lastUpdate ≤ now)
    (hbound : (now - d.lastUpdate) / d.decayPeriod < (d.values.length : Int)) :
    ∃ dz1 z1, Value dz now = some (float64Div dz1.sum d.values.length, dz1) ∧
      Decayed d z1 dz1 ∧ dz1.lastUpdate ≤ now ∧ now - dz1.lastUpdate ≤ d.decayPeriod := by
  have hc := h.size_pos
  have hlen : dz.values.length = d.values.length := by
    rw [hdz.values_eq, length_zeroSlots]
  have hfullz : (dz.values.length : Int) = dz.sampleSize := by
    rw [hlen, hdz.size_eq, hfull]
  have hne : dz.values ≠ [] := by
    intro h0
    rw [h0] at hfullz
    simp at hfullz
    have := hdz.size_eq
    omega
  have hpz : dz.decayPeriod = d.decayPeriod := hdz.period_eq
  by_cases hdue : dz.lastUpdate + dz.decayPeriod < now
  · have hk1 := elapsed_div_pos dz now (by omega) hdue
    have hsplit : (now - dz.lastUpdate) / d.decayPeriod =
        (now - d.lastUpdate) / d.decayPeriod - z := by
      rw [hdz.stamp_eq]
      have := Int.add_mul_ediv_right (now - d.lastUpdate) (-(z : Int))
        (ne_of_gt hp)
      rw [sub_eq_add_neg ((now - d.lastUpdate) / d.decayPeriod), ← this]
      congr 1
      ring
    rw [hpz] at hk1
    obtain ⟨k, hk⟩ : ∃ k : Nat, (k : Int) = (now - dz.lastUpdate) / d.decayPeriod :=
      ⟨((now - dz.lastUpdate) / d.decayPeriod).toNat, by omega⟩
    obtain ⟨dz1, hval, hinv1, hs1, hp1, hl1, hv1, hi1, _⟩ :=
      value_full_decay dz now k hdz.inv hfullz (by omega) hdue (by rw [hpz]; exact hk)
        (by omega)
    rw [hlen] at hval hi1
    have hmod : now - dz1.lastUpdate = (now - dz.lastUpdate) % d.decayPeriod := by
      rw [hl1, Int.emod_def, hk, hpz]
      ring
    have hmod0 := Int.emod_nonneg (now - dz.lastUpdate) (ne_of_gt hp)
    have hmod1 := Int.emod_lt_of_pos (now - dz.lastUpdate) hp
    refine ⟨dz1, z + k, hval, ⟨hinv1, by omega, by omega, ?_, ?_, ?_⟩, by omega, by omega⟩
    · rw [hl1, hdz.stamp_eq, hpz]
      push_cast
      ring
    · rw [hv1, hdz.values_eq]
      exact zeroSlots_add _ _ _ _ _ hdz.cursor_eq
    · rw [hi1, Nat.add_mod, hdz.cursor_eq, ← Nat.add_mod, Nat.add_assoc]
  · refine ⟨dz, z, ?_, hdz, hnow, by omega⟩
    rw [value_no_decay dz now hne (fun hboth => hdue hboth.2), hlen]

/-- A sequence of reads on a full buffer at non-decreasing times, none late
enough to zero the whole buffer: every read returns, and the final state has
some slots zeroed from the cursor on. -/
theorem valueRun_decayed (d : DWA) (h : Inv d)
    (hfull : (d.values.length : Int) = d.sampleSize) (hp : 0 < d.decayPeriod)
    (last : Int)
    (hbound : (last - d.lastUpdate) / d.decayPeriod < (d.values.length : Int))
    (nows : List Int) (dz : DWA) (z : Nat) (prev : Int)
    (hdz : Decayed d z dz) (hprev : dz.lastUpdate ≤ prev) (hlast : prev ≤ last)
    (hsorted : List.Chain (· ≤ ·) prev nows) (hbefore : ∀ x ∈ nows, x ≤ last) :
    ∃ rs dz1 z1, valueRun dz nows = some (rs, dz1) ∧ Decayed d z1 dz1 ∧
      dz1.lastUpdate ≤ last := by
  induction nows generalizing dz z prev with
  | nil => exact ⟨[], dz, z, rfl, hdz, by omega⟩
  | cons x rest ih =>
    rw [List.chain_cons] at hsorted
    have hx : x ≤ last := hbefore x (List.mem_cons_self x rest)
    have hbx : (x - d.lastUpdate) / d.decayPeriod < (d.values.length : Int) :=
      lt_of_le_of_lt (Int.ediv_le_ediv hp (by omega)) hbound
    obtain ⟨dz1, z1, hval, hdz1, hle, _⟩ :=
      value_decayed_step d dz z x h hfull hp hdz (by omega) hbx
    obtain ⟨rs, dz2, z2, hrun, hdz2, hle2⟩ :=
      ih dz1 z1 x hdz1 hle hx hsorted.2 (fun y hy => hbefore y (List.mem_cons_of_mem x hy))
    refine ⟨float64Div dz1.sum d.values.length :: rs, dz2, z2, ?_, hdz2, hle2⟩
    rw [valueRun, hval]
    simp [hrun]

/-! ## `Add` and the time stamp -/

theorem addValue_stamp (d : DWA) (v t : Int) :
    addValue { d with lastUpdate := t } v =
      (addValue d v).map fun d1 => { d1 with lastUpdate := t } := by
  unfold addValue
  simp only
  split
  · rfl
  · split
    · rfl
    · split
      · rfl
      · rfl

theorem foldlM_addValue_stamp (vs : List Int) (d : DWA) (t : Int) :
    vs.foldlM addValue { d with lastUpdate := t } =
      (vs.foldlM addValue d).map fun d1 => { d1 with lastUpdate := t } := by
  induction vs generalizing d with
  | nil => rfl
  | cons v rest ih =>
    rw [List.foldlM_cons, List.foldlM_cons, addValue_stamp]
    cases hstep : addValue d v with
    | none => rfl
    | some d1 => exact ih d1

/-- Two `Add` calls in a row are one `Add` call of the concatenated values at
the time of the second call (also when the calls fail). -/
theorem add_add (d : DWA) (xs ys : List Int) (t1 t2 : Int) :
    ((Add d xs t1).bind fun d1 => Add d1 ys t2) = Add d (xs ++ ys) t2 := by
  unfold Add
  rw [List.foldlM_append]
  cases hxs : xs.foldlM addValue d with
  | none => rfl
  | some dm =>
    simp only [Option.map_some', Option.some_bind, Option.bind_eq_bind]
    rw [foldlM_addValue_stamp]
    cases hys : ys.foldlM addValue dm with
    | none => rfl
    | some dn => rfl

/-! ## Zeroing slots of a buffer whose values have one sign -/

theorem zeroSlots_nonneg (l : List Int) (s n : Nat) (h : ∀ x ∈ l, 0 ≤ x) :
    (∀ x ∈ zeroSlots l s n, 0 ≤ x) ∧ (zeroSlots l s n).sum ≤ l.sum := by
  induction n with
  | zero => exact ⟨h, le_refl _⟩
  | succ m ih =>
    obtain ⟨hmem, hsum⟩ := ih
    rw [zeroSlots_succ]
    constructor
    · intro x hx
      rcases List.mem_or_eq_of_mem_set hx with hin | heq
      · exact hmem x hin
      · omega
    · by_cases hlt : (s + m) % l.length < (zeroSlots l s m).length
      · rw [sum_set_int _ _ _ hlt, List.getD_eq_getElem _ _ hlt]
        have := hmem _ (List.getElem_mem hlt)
        omega
      · rw [List.set_eq_of_length_le (by omega)]
        exact hsum

theorem zeroSlots_nonpos (l : List Int) (s n : Nat) (h : ∀ x ∈ l, x ≤ 0) :
    (∀ x ∈ zeroSlots l s n, x ≤ 0) ∧ l.sum ≤ (zeroSlots l s n).sum := by
  induction n with
  | zero => exact ⟨h, le_refl _⟩
  | succ m ih =>
    obtain ⟨hmem, hsum⟩ := ih
    rw [zeroSlots_succ]
    constructor
    · intro x hx
      rcases List.mem_or_eq_of_mem_set hx with hin | heq
      · exact hmem x hin
      · omega
    · by_cases hlt : (s + m) % l.length < (zeroSlots l s m).length
      · rw [sum_set_int _ _ _ hlt, List.getD_eq_getElem _ _ hlt]
        have := hmem _ (List.getElem_mem hlt)
        omega
      · rw [List.set_eq_of_length_le (by omega)]
        exact hsum

theorem sum_nonpos_int (l : List Int) (h : ∀ x ∈ l, x ≤ 0) : l.sum ≤ 0 := by
  induction l with
  | nil => simp
  | cons a t ih =>
    have ha := h a (List.mem_cons_self a t)
    have ht := ih fun x hx => h x (List.mem_cons_of_mem a hx)
    rw [List.sum_cons]
    omega

theorem abs_float64Div_le (a b : Int) (k : Nat) (h : |a| ≤ |b|) :
    |float64Div a k| ≤ |float64Div b k| := by
  unfold float64Div
  rw [abs_div, abs_div]
  apply div_le_div_of_nonneg_right _ (abs_nonneg _)
  have hcast : ((|a| : Int) : ℚ) ≤ ((|b| : Int) : ℚ) := by exact_mod_cast h
  rwa [Int.cast_abs, Int.cast_abs] at hcast

/-! ## Reads of a buffer that holds only zeros -/

theorem float64Div_zero (k : Nat) : float64Div 0 k = 0 := by
  simp [float64Div]

theorem zeroSlots_all_zero (l : List Int) (s n : Nat) (h : ∀ x ∈ l, x = 0) :
    ∀ x ∈ zeroSlots l s n, x = 0 := by
  induction n with
  | zero => exact h
  | succ m ih =>
    rw [zeroSlots_succ]
    intro x hx
    rcases List.mem_or_eq_of_mem_set hx with hin | heq
    · exact ih x hin
    · exact heq

theorem zeroSlots_of_length_le (l : List Int) (s n : Nat) (hn : l.length ≤ n) :
    ∀ x ∈ zeroSlots l s n, x = 0 := by
  intro x hx
  obtain ⟨j, hj, rfl⟩ := List.getElem_of_mem hx
  have hjl : j < l.length := by rwa [length_zeroSlots] at hj
  rw [← List.getD_eq_getElem _ 0 hj]
  apply zeroSlots_getD_of_mem
  refine ⟨(j + l.length - s % l.length) % l.length, ?_, ?_⟩
  · exact lt_of_lt_of_le (Nat.mod_lt _ (by omega)) hn
  · have ha : s % l.length < l.length := Nat.mod_lt _ (by omega)
    have hs : l.length * (s / l.length) + s % l.length = s := Nat.div_add_mod s l.length
    have hsplit : s + (j + l.length - s % l.length) =
        l.length * (s / l.length + 1) + j := by
      rw [Nat.mul_add, Nat.mul_one]
      omega
    rw [Nat.add_mod_mod, hsplit, Nat.mul_add_mod, Nat.mod_eq_of_lt hjl]

theorem allZero_sum (d : DWA) (h : AllZero d) : d.sum = 0 := by
  rw [h.inv.sum_eq, List.sum_eq_zero h.zero]
  decide

/-- A read of a buffer that is empty, or full of zeros, returns 0 and leaves
such a buffer. -/
theorem value_allZero (d : DWA) (now : Int) (h : AllZero d) :
    ∃ d1, Value d now = some (0, d1) ∧ AllZero d1 ∧
      d1.sampleSize = d.sampleSize ∧ d1.decayPeriod = d.decayPeriod := by
  have hinv := h.inv
  have hsum := allZero_sum d h
  rcases h.shape with hnil | hfull
  · exact ⟨d, value_empty d now hnil, h, rfl, rfl⟩
  · have hc := hinv.size_pos
    have hne : d.values ≠ [] := by
      intro h0
      rw [h0] at hfull
      simp at hfull
      omega
    by_cases hdue : 0 < d.decayPeriod ∧ d.lastUpdate + d.decayPeriod < now
    · obtain ⟨hp, hlate⟩ := hdue
      have h1 := elapsed_div_pos d now hp hlate
      by_cases hn : (d.values.length : Int) < (now - d.lastUpdate) / d.decayPeriod
      · refine ⟨_, value_reset d now hne hp hlate hn, ⟨inv_reset d hinv, ?_, Or.inl rfl⟩,
          rfl, rfl⟩
        intro x hx
        simp at hx
      · obtain ⟨k, hk⟩ : ∃ k : Nat, (k : Int) = (now - d.lastUpdate) / d.decayPeriod :=
          ⟨((now - d.lastUpdate) / d.decayPeriod).toNat, by omega⟩
        obtain ⟨d1, hval, hinv1, hs1, hp1, _, hv, _⟩ :=
          value_full_decay d now k hinv hfull hp hlate hk (by omega)
        have hzero : ∀ x ∈ d1.values, x = 0 := by
          rw [hv]
          exact zeroSlots_all_zero _ _ _ h.zero
        have hall : AllZero d1 :=
          ⟨hinv1, hzero, Or.inr (by rw [hv, length_zeroSlots, hs1]; exact hfull)⟩
        refine ⟨d1, ?_, hall, hs1, hp1⟩
        rw [hval, allZero_sum d1 hall, float64Div_zero]
    · refine ⟨d, ?_, h, rfl, rfl⟩
      rw [value_no_decay d now hne hdue, hsum, float64Div_zero]

theorem valueRun_allZero (nows : List Int) (d : DWA) (h : AllZero d) :
    ∃ d1, valueRun d nows = some (List.replicate nows.length 0, d1) ∧ AllZero d1 := by
  induction nows generalizing d with
  | nil => exact ⟨d, rfl, h⟩
  | cons t rest ih =>
    obtain ⟨d1, hval, h1, _, _⟩ := value_allZero d t h
    obtain ⟨d2, hrun, h2⟩ := ih d1 h1
    refine ⟨d2, ?_, h2⟩
    rw [valueRun, hval]
    simp [hrun, List.replicate_succ]

/-! ## States with the same ring -/

theorem lastN_append_lastN_right (c : Nat) (l m : List Int) :
    lastN c (l ++ lastN c m) = lastN c (l ++ m) := by
  by_cases h : m.length ≤ c
  · rw [lastN_of_length_le c m h]
  · have hlen : (lastN c m).length = c := by rw [length_lastN]; omega
    rw [lastN_append_of_le c l (lastN c m) (by omega),
      lastN_of_length_le c (lastN c m) (by omega),
      lastN_append_of_le c l m (by omega)]

theorem decayStep_eq_addValue_zero (d : DWA) (h : Inv d)
    (hfull : (d.values.length : Int) = d.sampleSize) :
    decayStep d = addValue d 0 := by
  rw [decayStep_full d h hfull, addValue_overwrite d 0 h hfull]
  simp

/-- The zeroing loop on a full buffer, seen in ring order: the ring loses its
`n` oldest values and gains `n` zeros at the young end. -/
theorem decayLoop_ring (n : Nat) (d : DWA) (h : Inv d)
    (hfull : (d.values.length : Int) = d.sampleSize) :
    ∃ d1, decayLoop n d = some d1 ∧ Inv d1 ∧
      d1.sampleSize = d.sampleSize ∧ d1.decayPeriod = d.decayPeriod ∧
      d1.lastUpdate = d.lastUpdate ∧ d1.values.length = d.values.length ∧
      ringOrder d1 = lastN d.sampleSize.toNat (ringOrder d ++ List.replicate n 0) := by
  induction n with
  | zero =>
    refine ⟨d, rfl, h, rfl, rfl, rfl, rfl, ?_⟩
    rw [List.replicate_zero, List.append_nil, lastN_of_length_le]
    rw [length_ringOrder]
    omega
  | succ k ih =>
    obtain ⟨d1, hloop, hinv1, hs1, hp1, hl1, hlen1, hring1⟩ := ih
    have hfull1 : (d1.values.length : Int) = d1.sampleSize := by omega
    obtain ⟨d2, hadd, hinv2, hs2, hp2, hl2, hring2⟩ := addValue_spec d1 0 hinv1
    have hstep : decayStep d1 = some d2 := by
      rw [decayStep_eq_addValue_zero d1 hinv1 hfull1, hadd]
    have hlen2 : d2.values.length = d1.values.length := by
      rw [addValue_overwrite d1 0 hinv1 hfull1] at hadd
      cases hadd
      simp
    refine ⟨d2, ?_, hinv2, by omega, by omega, by omega, by omega, ?_⟩
    · rw [decayLoop_succ_last, hloop, Option.some_bind, hstep]
    · rw [hring2, hring1, hs1, lastN_append_lastN, List.replicate_succ', List.append_assoc]

theorem ringEq_refl (d : DWA) (h : Inv d) : RingEq d d :=
  ⟨h, h, rfl, rfl, rfl, rfl⟩

theorem ringEq_length (a b : DWA) (h : RingEq a b) : b.values.length = a.values.length := by
  rw [← length_ringOrder b, h.ring_eq, length_ringOrder]

theorem ringEq_sum (a b : DWA) (h : RingEq a b) : b.sum = a.sum := by
  rw [h.inv_right.sum_eq, h.inv_left.sum_eq, ← sum_ringOrder b, h.ring_eq, sum_ringOrder]

theorem ringEq_of_not_full (a b : DWA) (h : RingEq a b)
    (hlt : (a.values.length : Int) < a.sampleSize) : b = a := by
  have hlen := ringEq_length a b h
  have hsize := h.size_eq
  have hltb : (b.values.length : Int) < b.sampleSize := by omega
  have hvals : b.values = a.values := by
    have := h.ring_eq
    rwa [ringOrder_not_full b h.inv_right hltb, ringOrder_not_full a h.inv_left hlt] at this
  have hidx : b.idx = a.idx := by
    rw [h.inv_right.idx_filling hltb, h.inv_left.idx_filling hlt, hlen]
  have hsum := ringEq_sum a b h
  have hp := h.period_eq
  have hl := h.stamp_eq
  cases a
  cases b
  simp only at hvals hidx hsum hp hl hsize
  simp only [DWA.mk.injEq]
  exact ⟨hl, hp, hidx, hsize, hvals, hsum⟩

theorem add_ringEq (a b : DWA) (vs : List Int) (t : Int) (h : RingEq a b) :
    ∃ a1 b1, Add a vs t = some a1 ∧ Add b vs t = some b1 ∧ RingEq a1 b1 := by
  obtain ⟨a1, ha, hinva, hsa, hpa, hla, hra⟩ := add_spec a vs t h.inv_left
  obtain ⟨b1, hb, hinvb, hsb, hpb, hlb, hrb⟩ := add_spec b vs t h.inv_right
  refine ⟨a1, b1, ha, hb, hinva, hinvb, ?_, ?_, ?_, ?_⟩
  · rw [hsb, hsa, h.size_eq]
  · rw [hpb, hpa, h.period_eq]
  · rw [hlb, hla]
  · rw [hrb, hra, h.size_eq, h.ring_eq]

/-- A read of two states with the same ring: both panic, or both return the
same number and leave states with the same ring. -/
theorem value_ringEq (a b : DWA) (now : Int) (h : RingEq a b) :
    (Value a now = none ∧ Value b now = none) ∨
      ∃ r a1 b1, Value a now = some (r, a1) ∧ Value b now = some (r, b1) ∧ RingEq a1 b1 := by
  have hinva := h.inv_left
  have hinvb := h.inv_right
  rcases lt_or_eq_of_le hinva.len_le with hlt | hfull
  · have hba := ringEq_of_not_full a b h hlt
    subst hba
    cases hval : Value b now with
    | none => exact Or.inl ⟨rfl, rfl⟩
    | some res =>
      obtain ⟨r, b1⟩ := res
      exact Or.inr ⟨r, b1, b1, rfl, rfl, ringEq_refl b1 (value_inv b b1 now r hinvb hval)⟩
  · right
    have hlen := ringEq_length a b h
    have hsum := ringEq_sum a b h
    have hsize := h.size_eq
    have hper := h.period_eq
    have hstamp := h.stamp_eq
    have hc := hinva.size_pos
    have hfullb : (b.values.length : Int) = b.sampleSize := by omega
    have hnea : a.values ≠ [] := by
      intro h0
      rw [h0] at hfull
      simp at hfull
      omega
    have hneb : b.values ≠ [] := by
      intro h0
      rw [h0] at hfullb
      simp at hfullb
      omega
    by_cases hdue : 0 < a.decayPeriod ∧ a.lastUpdate + a.decayPeriod < now
    · obtain ⟨hp, hlate⟩ := hdue
      have h1 := elapsed_div_pos a now hp hlate
      by_cases hn : (a.values.length : Int) < (now - a.lastUpdate) / a.decayPeriod
      · refine ⟨0, _, _, value_reset a now hnea hp hlate hn,
          value_reset b now hneb (by omega) (by omega) (by rw [hlen, hstamp, hper]; exact hn),
          inv_reset a hinva, inv_reset b hinvb, hsize, hper, hstamp, rfl⟩
      · obtain ⟨a1, hla, hia, hsa, hpa, hlsa, hlena, hra⟩ :=
          decayLoop_ring ((now - a.lastUpdate) / a.decayPeriod).toNat a hinva hfull
        obtain ⟨b1, hlb, hib, hsb, hpb, hlsb, hlenb, hrb⟩ :=
          decayLoop_ring ((now - a.lastUpdate) / a.decayPeriod).toNat b hinvb hfullb
        have hring : ringOrder b1 = ringOrder a1 := by
          rw [hrb, hra, hsize, h.ring_eq]
        have hsum1 : b1.sum = a1.sum := by
          rw [hib.sum_eq, hia.sum_eq, ← sum_ringOrder b1, hring, sum_ringOrder]
        refine ⟨float64Div a1.sum a1.values.length,
          { a1 with lastUpdate := a1.lastUpdate +
              (now - a.lastUpdate) / a.decayPeriod * a1.decayPeriod },
          { b1 with lastUpdate := b1.lastUpdate +
              (now - b.lastUpdate) / b.decayPeriod * b1.decayPeriod }, ?_, ?_,
          inv_of_lastUpdate a1 _ hia, inv_of_lastUpdate b1 _ hib, ?_, ?_, ?_, hring⟩
        · rw [value_decay a now hnea hp hlate (by omega), hla]
          rfl
        · rw [value_decay b now hneb (by omega) (by omega)
            (by rw [hstamp, hper, hlen]; omega), hstamp, hper, hlb]
          simp only [Option.map_some', hsum1, hlenb, hlen, hlena]
        · simp only
          omega
        · simp only
          omega
        · simp only
          rw [hlsb, hlsa, hpb, hpa, hstamp, hper]
    · have hdueb : ¬ (0 < b.decayPeriod ∧ b.lastUpdate + b.decayPeriod < now) := by
        rw [hper, hstamp]
        exact hdue
      refine ⟨float64Div a.sum a.values.length, a, b, value_no_decay a now hnea hdue, ?_, h⟩
      rw [value_no_decay b now hneb hdueb, hsum, hlen]

theorem callRun_ringEq (calls : List Call) (a b : DWA) (h : RingEq a b) :
    (callRun a calls).map Prod.fst = (callRun b calls).map Prod.fst := by
  induction calls generalizing a b with
  | nil => rfl
  | cons call rest ih =>
    cases call with
    | add vs t =>
      obtain ⟨a1, b1, ha, hb, h1⟩ := add_ringEq a b vs t h
      simp only [callRun, ha, hb, Option.some_bind]
      exact ih a1 b1 h1
    | value t =>
      rcases value_ringEq a b t h with ⟨ha, hb⟩ | ⟨r, a1, b1, ha, hb, h1⟩
      · simp [callRun, ha, hb]
      · have := ih a1 b1 h1
        simp only [callRun, ha, hb, Option.some_bind, Option.map_map]
        cases hra : callRun a1 rest with
        | none =>
          rw [hra] at this
          cases hrb : callRun b1 rest with
          | none => rfl
          | some qb =>
            rw [hrb] at this
            cases this
        | some qa =>
          rw [hra] at this
          cases hrb : callRun b1 rest with
          | none =>
            rw [hrb] at this
            cases this
          | some qb =>
            rw [hrb] at this
            simp only [Option.map_some', Option.some.injEq] at this ⊢
            simp [this]

/-! ## A window that is being refilled, and the same window preceded by zeros -/

theorem add_of_stamp (d : DWA) (x : Int) (vs : List Int) (t : Int) :
    Add { d with lastUpdate := x } vs t = Add d vs t := by
  unfold Add
  rw [foldlM_addValue_stamp]
  cases vs.foldlM addValue d <;> rfl

theorem map_cons_fst (x : Option (List ℚ × DWA)) (r : ℚ) :
    (x.map fun q => (r :: q.1, q.2)).map Prod.fst = (x.map Prod.fst).map (List.cons r) := by
  cases x <;> rfl

theorem ringOrder_of_nil (d : DWA) (h : d.values = []) : ringOrder d = [] := by
  unfold ringOrder
  rw [h]
  simp

theorem mem_values_of_ring_zero (d : DWA) (h : ∀ x ∈ ringOrder d, x = 0) :
    ∀ x ∈ d.values, x = 0 := by
  intro x hx
  apply h
  unfold ringOrder
  exact List.mem_rotate.mpr hx

theorem eq_of_empty (r z : DWA) (hr : Inv r) (hz : Inv z)
    (hsize : z.sampleSize = r.sampleSize) (hper : z.decayPeriod = r.decayPeriod)
    (hrv : r.values = []) (hzv : z.values = []) :
    { z with lastUpdate := r.lastUpdate } = r := by
  have hc := hr.size_pos
  have hri := hr.idx_filling (by rw [hrv]; simp; omega)
  have hzi := hz.idx_filling (by rw [hzv]; simp; omega)
  have hrs := hr.sum_eq
  have hzs := hz.sum_eq
  rw [hrv] at hri hrs
  rw [hzv] at hzi hzs
  cases r
  cases z
  simp only at hsize hper hrv hzv hri hzi hrs hzs
  simp only [DWA.mk.injEq, true_and]
  refine ⟨hper, ?_, hsize, ?_, ?_⟩
  · rw [hri, hzi]
  · rw [hrv, hzv]
  · rw [hrs, hzs]

/-- A read while the window being refilled is still empty: both states return
0, and the state that trails still trails. -/
theorem trails_value (r z : DWA) (now : Int) (h : Trails r z) (hempty : r.values = []) :
    Value r now = some (0, r) ∧ ∃ z1, Value z now = some (0, z1) ∧ Trails r z1 := by
  refine ⟨value_empty r now hempty, ?_⟩
  have hring0 := ringOrder_of_nil r hempty
  obtain ⟨zs, hzs, hring⟩ := h.ring
  have hzero : ∀ x ∈ z.values, x = 0 := by
    apply mem_values_of_ring_zero
    intro x hx
    rw [hring, hring0, List.append_nil] at hx
    unfold lastN at hx
    exact hzs x (List.mem_of_mem_drop hx)
  have hshape : z.values = [] ∨ (z.values.length : Int) = z.sampleSize := by
    rcases h.shape with hfull | heq
    · exact Or.inr hfull
    · left
      have : ({ z with lastUpdate := r.lastUpdate } : DWA).values = r.values := by rw [heq]
      rw [← hempty]
      exact this
  obtain ⟨z1, hval, hall, hs1, hp1⟩ := value_allZero z now ⟨h.inv_right, hzero, hshape⟩
  refine ⟨z1, hval, h.inv_left, hall.inv, by rw [hs1, h.size_eq], by rw [hp1, h.period_eq],
    h.filling, ⟨ringOrder z1, ?_, ?_⟩, ?_, fun hne => absurd hempty hne⟩
  · intro x hx
    unfold ringOrder at hx
    exact hall.zero x (List.mem_rotate.mp hx)
  · rw [hring0, List.append_nil, lastN_of_length_le]
    rw [length_ringOrder]
    have := hall.inv.len_le
    have := h.size_eq
    omega
  · rcases hall.shape with hnil | hfull
    · exact Or.inr (eq_of_empty r z1 h.inv_left hall.inv (by rw [hs1, h.size_eq])
        (by rw [hp1, h.period_eq]) hempty hnil)
    · exact Or.inl hfull

/-- An `Add` on a window being refilled and on the state that trails it: both
return; while the window stays short of its capacity the one still trails the
other, and once it is full the two have the same ring. -/
theorem trails_add (r z : DWA) (vs : List Int) (t : Int) (h : Trails r z) :
    ∃ r1 z1, Add r vs t = some r1 ∧ Add z vs t = some z1 ∧
      (((r.values.length + vs.length : Nat) : Int) < r.sampleSize →
        Trails r1 z1 ∧ r1.values.length = r.values.length + vs.length ∧
        r1.sampleSize = r.sampleSize) ∧
      (r.sampleSize ≤ ((r.values.length + vs.length : Nat) : Int) → RingEq r1 z1) := by
  obtain ⟨r1, hr, hinvr, hsr, hpr, hlr, hrr⟩ := add_spec r vs t h.inv_left
  obtain ⟨z1, hz, hinvz, hsz, hpz, hlz, hrz⟩ := add_spec z vs t h.inv_right
  obtain ⟨zs, hzs, hring⟩ := h.ring
  have hc := h.inv_left.size_pos
  have hsize := h.size_eq
  have hper := h.period_eq
  rw [hring, hsize, lastN_append_lastN, List.append_assoc] at hrz
  have hrlen : (ringOrder r).length = r.values.length := length_ringOrder r
  refine ⟨r1, z1, hr, hz, fun hshort => ?_, fun hfill => ?_⟩
  · have hr1 : ringOrder r1 = ringOrder r ++ vs := by
      rw [hrr, lastN_of_length_le]
      rw [List.length_append, hrlen]
      omega
    have hlen1 : r1.values.length = r.values.length + vs.length := by
      rw [← length_ringOrder r1, hr1, List.length_append, hrlen]
    refine ⟨⟨hinvr, hinvz, by omega, by omega, by omega, ⟨zs, hzs, ?_⟩, ?_, fun _ => by omega⟩,
      hlen1, hsr⟩
    · rw [hrz, hsr, hr1]
    · rcases h.shape with hfull | heq
      · left
        have hzlen : (ringOrder z1).length = z.values.length := by
          rw [hrz, length_lastN, List.length_append, List.length_append, hrlen]
          have hl : (ringOrder z).length = z.values.length := length_ringOrder z
          rw [hring, length_lastN, List.length_append, hrlen] at hl
          omega
        rw [length_ringOrder] at hzlen
        omega
      · right
        have hsame : Add z vs t = Add r vs t := by
          rw [← add_of_stamp z r.lastUpdate vs t, heq]
        rw [hsame, hr] at hz
        cases hz
        rfl
  · refine ⟨hinvr, hinvz, by omega, by omega, by omega, ?_⟩
    rw [hrz, hrr, lastN_append_of_le _ zs (ringOrder r ++ vs)]
    rw [List.length_append, hrlen]
    omega

/-- A sequence of calls with no read while the window is being refilled: the
window and the state that trails it return the same numbers and fail at the
same calls. -/
theorem callRun_trails (calls : List Call) (r z : DWA) (h : Trails r z)
    (hcalls : noReadWhileRefilling r.sampleSize r.values.length calls) :
    (callRun r calls).map Prod.fst = (callRun z calls).map Prod.fst := by
  induction calls generalizing r z with
  | nil => rfl
  | cons call rest ih =>
    cases call with
    | add vs t =>
      obtain ⟨r1, z1, hr, hz, hshort, hfill⟩ := trails_add r z vs t h
      simp only [callRun, hr, hz, Option.some_bind]
      simp only [noReadWhileRefilling] at hcalls
      by_cases hcap : r.sampleSize ≤ ((r.values.length + vs.length : Nat) : Int)
      · exact callRun_ringEq rest r1 z1 (hfill hcap)
      · obtain ⟨htr, hlen, hsize⟩ := hshort (by omega)
        apply ih r1 z1 htr
        rw [hsize, hlen]
        exact hcalls.resolve_left hcap
    | value t =>
      simp only [noReadWhileRefilling] at hcalls
      obtain ⟨hk, hrest⟩ := hcalls
      have hempty : r.values = [] := List.length_eq_zero.mp hk
      obtain ⟨hr, z1, hz, htr⟩ := trails_value r z t h hempty
      simp only [callRun, hr, hz, Option.some_bind]
      rw [map_cons_fst, map_cons_fst, ih r z1 htr hrest]

/-! ## The claims -/

/-- C1 (the code fails where the claim says it cannot).  On a reachable state
whose buffer holds some but fewer than `sampleSize` samples, a `Value` read at
which decay is due for at most `len(values)` periods panics: the zeroing loop
indexes the slot `idx % sampleSize = len(values)`, one past the end of the
slice. -/
theorem C1_value_panics_on_partly_filled_buffer (d : DWA) (now : Int)
    (hr : Reachable d) (hne : d.values ≠ [])
    (hlt : (d.values.length : Int) < d.sampleSize)
    (hp : 0 < d.decayPeriod) (hdue : d.lastUpdate + d.decayPeriod < now)
    (hn : (now - d.lastUpdate) / d.decayPeriod ≤ (d.values.length : Int)) :
    Value d now = none := by
  have hinv := reachable_inv d hr
  have h1 := elapsed_div_pos d now hp hdue
  rw [value_decay d now hne hp hdue hn,
    decayLoop_not_full _ d hinv hlt (by omega)]
  rfl

/-- C1, at `NewDWA(5, 10)`, `Add(1, 2)` at time 0 and `Value` at time 15: the
read panics. -/
theorem C1_value_panics_witness :
    ∃ d0 d1 : DWA, NewDWA maxAlloc64 5 10 = Except.ok d0 ∧ Add d0 [1, 2] 0 = some d1 ∧
      d1.values = [1, 2] ∧ d1.idx = 2 ∧ Value d1 15 = none :=
  ⟨⟨0, 10, 0, 5, [], 0⟩, ⟨0, 10, 2, 5, [1, 2], 3⟩, rfl, by decide, rfl, rfl,
    C1_value_panics_on_partly_filled_buffer ⟨0, 10, 2, 5, [1, 2], 3⟩ 15
      (Reachable.add ⟨0, 10, 0, 5, [], 0⟩ _ [1, 2] 0
        (Reachable.new maxAlloc64 5 10 _ rfl) (by decide))
      (by decide) (by decide) (by decide) (by decide) (by decide)⟩

/-- C2, the claim as stated fails when the sum leaves the `int64` range: after
`NewDWA(2, 0)` and `Add(2^62, 2^62)` the buffer holds both values, but `sum` is
`-2^63`, not their sum `2^63`, and `Value` returns `-2^62`, not their mean
`2^62`. -/
theorem C2_counterexample :
    ∃ d0 d1 : DWA, NewDWA maxAlloc64 2 0 = Except.ok d0 ∧
      Add d0 [4611686018427387904, 4611686018427387904] 0 = some d1 ∧
      d1.values = [4611686018427387904, 4611686018427387904] ∧
      d1.sum = -9223372036854775808 ∧
      d1.sum ≠ ([4611686018427387904, 4611686018427387904] : List Int).sum ∧
      Value d1 0 = some (float64Div (-9223372036854775808) 2, d1) ∧
      float64Div (-9223372036854775808) 2 ≠
        float64Div ([4611686018427387904, 4611686018427387904] : List Int).sum 2 :=
  ⟨⟨0, 0, 0, 2, [], 0⟩,
    ⟨0, 0, 2, 2, [4611686018427387904, 4611686018427387904], -9223372036854775808⟩,
    rfl, by decide, rfl, rfl, by decide, rfl, by norm_num [float64Div]⟩

/-- C2 (amended: the sum is taken in `int64`).  For every reachable state with
capacity `c = sampleSize` and every list `vs` of at least `c` integers, one
`Add(vs)` returns and leaves a buffer of length `c` that holds exactly the last
`c` values of `vs`, each once, laid out in ring order (read from the cursor on,
the buffer is that list); `sum` is their sum reduced to `int64`, and a `Value`
read before any decay is due returns that `sum` divided by `c`.  When their
integer sum lies in the `int64` range, `sum` is that sum and the read returns
their mean. -/
theorem C2_ring_overwrite (d : DWA) (vs : List Int) (now : Int)
    (hr : Reachable d) (hlen : d.sampleSize ≤ (vs.length : Int)) :
    ∃ d1, Add d vs now = some d1 ∧
      (d1.values.length : Int) = d.sampleSize ∧
      ringOrder d1 = lastN d.sampleSize.toNat vs ∧
      d1.values.Perm (lastN d.sampleSize.toNat vs) ∧
      d1.sum = wrapInt64 (lastN d.sampleSize.toNat vs).sum ∧
      (∀ t, (d1.decayPeriod = 0 ∨ t - now ≤ d1.decayPeriod) →
        Value d1 t =
          some (float64Div (wrapInt64 (lastN d.sampleSize.toNat vs).sum)
            d.sampleSize.toNat, d1)) ∧
      (IsInt64 (lastN d.sampleSize.toNat vs).sum →
        d1.sum = (lastN d.sampleSize.toNat vs).sum ∧
        ∀ t, (d1.decayPeriod = 0 ∨ t - now ≤ d1.decayPeriod) →
          Value d1 t =
            some (float64Div (lastN d.sampleSize.toNat vs).sum d.sampleSize.toNat, d1)) := by
  have hinv := reachable_inv d hr
  have hc := hinv.size_pos
  obtain ⟨d1, hadd, hinv1, hs, _, hl, hring⟩ := add_spec d vs now hinv
  rw [lastN_append_of_le _ _ _ (by omega)] at hring
  have hlen1 : d1.values.length = d.sampleSize.toNat := by
    rw [← length_ringOrder, hring, length_lastN]
    omega
  have hne : d1.values ≠ [] := by
    intro h0
    rw [h0] at hlen1
    simp at hlen1
    omega
  have hsum : d1.sum = wrapInt64 (lastN d.sampleSize.toNat vs).sum := by
    rw [hinv1.sum_eq, ← sum_ringOrder, hring]
  have hval : ∀ t, (d1.decayPeriod = 0 ∨ t - now ≤ d1.decayPeriod) →
      Value d1 t = some (float64Div d1.sum d.sampleSize.toNat, d1) := by
    intro t ht
    rw [value_no_decay d1 t hne (by omega), hlen1]
  refine ⟨d1, hadd, by omega, hring, ?_, hsum, ?_, fun hfit => ⟨?_, ?_⟩⟩
  · rw [← hring]
    exact (List.rotate_perm d1.values d1.idx.toNat).symm
  · intro t ht
    rw [hval t ht, hsum]
  · rw [hsum, wrapInt64_of_isInt64 _ hfit]
  · intro t ht
    rw [hval t ht, hsum, wrapInt64_of_isInt64 _ hfit]

/-- C2 on `ExampleNewDWA`: `Add(1, ..., 7)` on a fresh window of 5 leaves
`[6, 7, 3, 4, 5]` with the cursor at 2, which read from the cursor on is
`[3, 4, 5, 6, 7]`; the sum is 25 and the average 5. -/
theorem C2_ring_overwrite_witness :
    ∃ d1, Add ⟨0, 10, 0, 5, [], 0⟩ [1, 2, 3, 4, 5, 6, 7] 0 = some d1 ∧
      (d1.values.length : Int) = 5 ∧
      ringOrder d1 = [3, 4, 5, 6, 7] ∧
      d1.values.Perm [3, 4, 5, 6, 7] ∧
      d1.sum = wrapInt64 25 ∧
      (∀ t, (d1.decayPeriod = 0 ∨ t - 0 ≤ d1.decayPeriod) →
        Value d1 t = some (float64Div (wrapInt64 25) 5, d1)) ∧
      (IsInt64 25 → d1.sum = 25 ∧
        ∀ t, (d1.decayPeriod = 0 ∨ t - 0 ≤ d1.decayPeriod) →
          Value d1 t = some (float64Div 25 5, d1)) :=
  C2_ring_overwrite ⟨0, 10, 0, 5, [], 0⟩ [1, 2, 3, 4, 5, 6, 7] 0
    (Reachable.new maxAlloc64 5 10 _ rfl) (by decide)

/-- C3, the claim as stated fails when the sum leaves the `int64` range: after
`NewDWA(3, 0)` and `Add(2^63 - 1, 1)` the two values sum to `2^63`, but `Value`
returns `-2^63 / 2`, not `2^63 / 2`. -/
theorem C3_counterexample :
    ∃ d0 d1 : DWA, NewDWA maxAlloc64 3 0 = Except.ok d0 ∧
      addRun d0 [([9223372036854775807, 1], 0)] = some d1 ∧
      d1.values = [9223372036854775807, 1] ∧
      Value d1 7 = some (float64Div (-9223372036854775808) 2, d1) ∧
      float64Div (-9223372036854775808) 2 ≠
        float64Div ([9223372036854775807, 1] : List Int).sum 2 :=
  ⟨⟨0, 0, 0, 3, [], 0⟩, ⟨0, 0, 2, 3, [9223372036854775807, 1], -9223372036854775808⟩,
    rfl, by decide, rfl, rfl, by norm_num [float64Div]⟩

/-- C3 (amended: the sum is taken in `int64`).  For every capacity `c` and
every list `vs` of `k` integers with `1 ≤ k ≤ c`, handed to `Add` in one call
or split over several calls at any clock readings, `NewDWA(c, 0)` followed by
those calls leaves the buffer equal to `vs`, and `Value` read at any time
returns the `int64` sum of `vs` divided by `k` (the number of samples, not the
capacity).  When the integer sum of `vs` lies in the `int64` range, that is
`(sum of vs) / k`.  The capacity is one whose slice `make` allocates, which is
when `NewDWA(c, 0)` returns. -/
theorem C3_partial_fill_no_decay (maxAlloc : Nat) (c : Int)
    (calls : List (List Int × Int))
    (vs : List Int) (hvs : (calls.map Prod.fst).flatten = vs)
    (hk1 : 1 ≤ vs.length) (hk2 : (vs.length : Int) ≤ c)
    (hfits : 8 * c < 2 ^ 64) (hmax : 8 * c ≤ (maxAlloc : Int)) :
    ∃ d0 d1, NewDWA maxAlloc c 0 = Except.ok d0 ∧ addRun d0 calls = some d1 ∧
      d1.values = vs ∧
      (∀ t, Value d1 t = some (float64Div (wrapInt64 vs.sum) vs.length, d1)) ∧
      (IsInt64 vs.sum → ∀ t, Value d1 t = some (float64Div vs.sum vs.length, d1)) := by
  have hnew : NewDWA maxAlloc c 0 = Except.ok ⟨0, 0, 0, c, [], 0⟩ :=
    (newDWA_ok maxAlloc c 0 _).mpr ⟨by omega, le_refl 0, hfits, hmax, rfl⟩
  obtain ⟨d1, hrun, hv, hs, hp, _⟩ := addRun_fill calls ⟨0, 0, 0, c, [], 0⟩ rfl
    (by rw [hvs]; simp; omega) (by show wrapInt64 0 = 0; decide)
  rw [hvs] at hv hs
  simp only [List.nil_append, zero_add] at hv hs
  have hne : d1.values ≠ [] := by
    rw [hv]
    intro h0
    rw [h0] at hk1
    simp at hk1
  have hval : ∀ t, Value d1 t = some (float64Div (wrapInt64 vs.sum) vs.length, d1) := by
    intro t
    rw [value_no_decay d1 t hne (by rw [hp]; simp), hs, hv]
  refine ⟨_, d1, hnew, hrun, hv, hval, fun hfit t => ?_⟩
  rw [hval t, wrapInt64_of_isInt64 _ hfit]

/-- C3 on a window of 5 filled with `4, 5, 9` in two calls: the average is
`18 / 3`, not `18 / 5`. -/
theorem C3_partial_fill_no_decay_witness :
    ∃ d0 d1, NewDWA maxAlloc64 5 0 = Except.ok d0 ∧
      addRun d0 [([4, 5], 0), ([9], 20)] = some d1 ∧
      d1.values = [4, 5, 9] ∧
      (∀ t, Value d1 t = some (float64Div (wrapInt64 18) 3, d1)) ∧
      (IsInt64 18 → ∀ t, Value d1 t = some (float64Div 18 3, d1)) :=
  C3_partial_fill_no_decay maxAlloc64 5 [([4, 5], 0), ([9], 20)] [4, 5, 9] rfl
    (by decide) (by decide) (by decide) (by decide)

/-- C4, the claim as stated fails in two places.  The cursor is stored reduced:
after `NewDWA(2, 10)` and `Add(1, 2)` at time 0 the cursor is 2, and a read at
time 15 zeroes one slot and leaves the cursor at 1, not at 3.  The sum is an
`int64`: after `Add(-2^63, -1)` the sum is `2^63 - 1`, and zeroing the slot
that holds `-2^63` leaves the sum `-1`, not `2^63 - 1 + 2^63`. -/
theorem C4_counterexample :
    (∃ d0 d1 d2 : DWA, NewDWA maxAlloc64 2 10 = Except.ok d0 ∧ Add d0 [1, 2] 0 = some d1 ∧
      (d1.values.length : Int) = d1.sampleSize ∧ d1.decayPeriod < 15 - d1.lastUpdate ∧
      (15 - d1.lastUpdate) / d1.decayPeriod = 1 ∧
      Value d1 15 = some (float64Div 2 2, d2) ∧
      d1.idx = 2 ∧ d2.idx = 1 ∧ d2.idx ≠ d1.idx + 1) ∧
    (∃ d0 d1 d2 : DWA, NewDWA maxAlloc64 2 10 = Except.ok d0 ∧
      Add d0 [-9223372036854775808, -1] 0 = some d1 ∧
      (d1.values.length : Int) = d1.sampleSize ∧ d1.decayPeriod < 15 - d1.lastUpdate ∧
      (15 - d1.lastUpdate) / d1.decayPeriod = 1 ∧
      Value d1 15 = some (float64Div (-1) 2, d2) ∧
      d1.values = [-9223372036854775808, -1] ∧ d2.values = [0, -1] ∧
      d1.sum = 9223372036854775807 ∧ d2.sum = -1 ∧
      d2.sum ≠ d1.sum - (-9223372036854775808)) :=
  ⟨⟨⟨0, 10, 0, 2, [], 0⟩, ⟨0, 10, 2, 2, [1, 2], 3⟩, ⟨10, 10, 1, 2, [0, 2], 2⟩,
      rfl, by decide, by decide, by decide, by decide, rfl, rfl, rfl, by decide⟩,
    ⟨⟨0, 10, 0, 2, [], 0⟩,
      ⟨0, 10, 2, 2, [-9223372036854775808, -1], 9223372036854775807⟩,
      ⟨10, 10, 1, 2, [0, -1], -1⟩,
      rfl, by decide, by decide, by decide, by decide, by rfl, rfl, rfl, rfl, rfl, by decide⟩⟩

/-- C4 (amended: the cursor advances modulo the capacity, the sum is lowered in
`int64`).  For every reachable state whose buffer is full, with
`decayPeriod > 0`, and every read time with
`elapsed = now - lastUpdate > decayPeriod` and
`n = floor(elapsed / decayPeriod) < len(values)`, `Value` returns and sets to 0
exactly the `n` slots `(idx + k) % len(values)` for `k < n` (which are `n`
different slots), leaves every other slot and the length unchanged, lowers `sum` by the values it zeroed in `int64`
arithmetic (exactly, when that difference lies in the `int64` range), leaves
the cursor at `((idx + n - 1) % capacity) + 1`, which is `idx + n` modulo the
capacity, and returns the new sum divided by the unchanged length. -/
theorem C4_partial_decay_step (d : DWA) (now : Int) (n : Nat) (hr : Reachable d)
    (hfull : (d.values.length : Int) = d.sampleSize)
    (hp : 0 < d.decayPeriod) (hdue : d.decayPeriod < now - d.lastUpdate)
    (hn : (n : Int) = (now - d.lastUpdate) / d.decayPeriod)
    (hlt : n < d.values.length) :
    ∃ d1, Value d now = some (float64Div d1.sum d.values.length, d1) ∧
      d1.values.length = d.values.length ∧
      (∀ k1 k2, k1 < k2 → k2 < n →
        (d.idx.toNat + k2) % d.values.length ≠ (d.idx.toNat + k1) % d.values.length) ∧
      (∀ j, (∃ k, k < n ∧ j = (d.idx.toNat + k) % d.values.length) →
        d1.values.getD j 0 = 0) ∧
      (∀ j, (¬ ∃ k, k < n ∧ j = (d.idx.toNat + k) % d.values.length) →
        d1.values.getD j 0 = d.values.getD j 0) ∧
      d1.sum = wrapInt64 (d.sum - zeroedSum d.values d.idx.toNat n) ∧
      (IsInt64 (d.sum - zeroedSum d.values d.idx.toNat n) →
        d1.sum = d.sum - zeroedSum d.values d.idx.toNat n) ∧
      d1.idx = ((d.idx.toNat + (n - 1)) % d.values.length : Nat) + 1 ∧
      d1.idx.toNat % d.values.length = (d.idx.toNat + n) % d.values.length := by
  have hinv := reachable_inv d hr
  obtain ⟨d1, hval, hinv1, _, _, _, hv, hi, hidx⟩ :=
    value_full_decay d now n hinv hfull hp (by omega) hn (by omega)
  have hsum : d1.sum = wrapInt64 (d.sum - zeroedSum d.values d.idx.toNat n) := by
    rw [hinv1.sum_eq, hv, sum_zeroSlots _ _ _ (by omega), hinv.sum_eq, wrapInt64_sub_left]
  refine ⟨d1, hval, by rw [hv, length_zeroSlots],
    fun k1 k2 h12 h2n => mod_add_ne _ _ k1 k2 h12 (by omega),
    fun j hj => ?_, fun j hj => ?_, hsum, fun hfit => ?_, hidx, hi⟩
  · rw [hv]
    exact zeroSlots_getD_of_mem _ _ _ _ hj
  · rw [hv]
    exact zeroSlots_getD_of_not_mem _ _ _ _ hj
  · rw [hsum, wrapInt64_of_isInt64 _ hfit]

/-- C4 on the second read of `ExampleNewDWA`: the buffer `[6, 7, 3, 4, 5]` with
the cursor at 2, read 15 after the `Add`, loses the value 3 in slot 2. -/
theorem C4_partial_decay_step_witness :
    ∃ d1, Value ⟨0, 10, 2, 5, [6, 7, 3, 4, 5], 25⟩ 15 = some (float64Div d1.sum 5, d1) ∧
      d1.values.length = 5 ∧
      (∀ k1 k2, k1 < k2 → k2 < 1 → (2 + k2) % 5 ≠ (2 + k1) % 5) ∧
      (∀ j, (∃ k, k < 1 ∧ j = (2 + k) % 5) → d1.values.getD j 0 = 0) ∧
      (∀ j, (¬ ∃ k, k < 1 ∧ j = (2 + k) % 5) →
        d1.values.getD j 0 = ([6, 7, 3, 4, 5] : List Int).getD j 0) ∧
      d1.sum = wrapInt64 (25 - zeroedSum [6, 7, 3, 4, 5] 2 1) ∧
      (IsInt64 (25 - zeroedSum [6, 7, 3, 4, 5] 2 1) →
        d1.sum = 25 - zeroedSum [6, 7, 3, 4, 5] 2 1) ∧
      d1.idx = ((2 + (1 - 1)) % 5 : Nat) + 1 ∧
      d1.idx.toNat % 5 = (2 + 1) % 5 :=
  C4_partial_decay_step ⟨0, 10, 2, 5, [6, 7, 3, 4, 5], 25⟩ 15 1
    (Reachable.add ⟨0, 10, 0, 5, [], 0⟩ _ [1, 2, 3, 4, 5, 6, 7] 0
      (Reachable.new maxAlloc64 5 10 _ rfl) (by decide))
    (by decide) (by decide) (by decide) (by decide) (by decide)

/-- C5, the claim as stated fails at `n = len(values)`: after `NewDWA(1, 10)`
and `Add(5)` at time 0, a read at time 15 has `n = 1 = len(values)`; `Value`
returns 0 but keeps the one-slot buffer (now holding 0), leaves the cursor at 1
and moves `lastUpdate` to 10. -/
theorem C5_counterexample :
    ∃ d0 d1 d2 : DWA, NewDWA maxAlloc64 1 10 = Except.ok d0 ∧ Add d0 [5] 0 = some d1 ∧
      d1.values ≠ [] ∧ 0 < d1.decayPeriod ∧ d1.decayPeriod < 15 - d1.lastUpdate ∧
      (d1.values.length : Int) ≤ (15 - d1.lastUpdate) / d1.decayPeriod ∧
      Value d1 15 = some (float64Div 0 1, d2) ∧
      d2.values = [0] ∧ d2.idx = 1 ∧ d2.lastUpdate = 10 ∧ d1.lastUpdate = 0 :=
  ⟨⟨0, 10, 0, 1, [], 0⟩, ⟨0, 10, 1, 1, [5], 5⟩, ⟨10, 10, 1, 1, [0], 0⟩,
    rfl, by decide, by decide, by decide, by decide, by decide, rfl, rfl, rfl, rfl, rfl⟩

/-- C5 (amended threshold `n > len(values)`).  On every state with a non-empty
buffer and `decayPeriod > 0`, at every read time with
`elapsed = now - lastUpdate > decayPeriod` and
`n = floor(elapsed / decayPeriod) > len(values)`, `Value` returns 0 and leaves
the buffer empty, `sum = 0`, the cursor at 0 and everything else, `lastUpdate`
included, unchanged. -/
theorem C5_full_decay_reset (d : DWA) (now : Int) (hne : d.values ≠ [])
    (hp : 0 < d.decayPeriod) (hdue : d.decayPeriod < now - d.lastUpdate)
    (hn : (d.values.length : Int) < (now - d.lastUpdate) / d.decayPeriod) :
    Value d now = some (0,
      { lastUpdate := d.lastUpdate
        decayPeriod := d.decayPeriod
        idx := 0
        sampleSize := d.sampleSize
        values := []
        sum := 0 }) :=
  value_reset d now hne hp (by omega) hn

/-- C5 at the last read of `TestValueDecay1`: the full buffer `[10, 0, 0, 0, 9]`
with `lastUpdate = 30`, read at time 97, is cleared. -/
theorem C5_full_decay_reset_witness :
    Value ⟨30, 10, 4, 5, [10, 0, 0, 0, 9], 19⟩ 97 = some (0, ⟨30, 10, 0, 5, [], 0⟩) :=
  C5_full_decay_reset ⟨30, 10, 4, 5, [10, 0, 0, 0, 9], 19⟩ 97
    (by decide) (by decide) (by decide) (by decide)

/-- C6, the claim as stated fails in two places.  On the boundary: after
`NewDWA(2, 10)` and `Add(1, 2)` at time 0, a read at time 10 has
`n = floor(10 / 10) = 1`, yet zeroes nothing and returns `3 / 2`, because decay
starts only once more than one period has passed.  The sum is an `int64`: after
`Add(2^62, 2^62)` a read at the time of the `Add` (`n = 0`) returns
`-2^63 / 2`, not `2^63 / 2`. -/
theorem C6_counterexample :
    (∃ d0 d1 : DWA, NewDWA maxAlloc64 2 10 = Except.ok d0 ∧ Add d0 [1, 2] 0 = some d1 ∧
      (d1.values.length : Int) = d1.sampleSize ∧
      (10 - 0) / d1.decayPeriod = 1 ∧
      Value d1 10 = some (float64Div 3 2, d1) ∧
      d1.values = [1, 2] ∧ zeroSlots d1.values d1.idx.toNat 1 = [0, 2] ∧
      d1.values ≠ zeroSlots d1.values d1.idx.toNat 1) ∧
    (∃ d0 d1 : DWA, NewDWA maxAlloc64 2 10 = Except.ok d0 ∧
      Add d0 [4611686018427387904, 4611686018427387904] 0 = some d1 ∧
      (d1.values.length : Int) = d1.sampleSize ∧
      (0 - 0) / d1.decayPeriod = 0 ∧
      Value d1 0 = some (float64Div (-9223372036854775808) 2, d1) ∧
      zeroSlots d1.values d1.idx.toNat 0 = d1.values ∧
      float64Div (-9223372036854775808) 2 ≠ float64Div d1.values.sum 2) :=
  ⟨⟨⟨0, 10, 0, 2, [], 0⟩, ⟨0, 10, 2, 2, [1, 2], 3⟩,
      rfl, by decide, by decide, by decide, rfl, rfl, by decide, by decide⟩,
    ⟨⟨0, 10, 0, 2, [], 0⟩,
      ⟨0, 10, 2, 2, [4611686018427387904, 4611686018427387904], -9223372036854775808⟩,
      rfl, by decide, by decide, by decide, by rfl, rfl, by norm_num [float64Div]⟩⟩

/-- C6 (amended: off the period boundary, the sum taken in `int64`).  For every
state right after an `Add` at time `t0` that leaves the buffer full, with
`decayPeriod > 0`, and every time `t ≥ t0` that is `t0` itself or for which
`t - t0` is not an exact multiple of `decayPeriod`, with
`n = floor((t - t0) / decayPeriod) < len(values)`: after any earlier `Value`
reads at non-decreasing times between `t0` and `t` (all of which return) and no
`Add`, a `Value` read at `t` returns and leaves the buffer equal to the buffer
after the `Add` with the `n` slots from the cursor on (oldest first, in the
order in which `Add` overwrites them) replaced by 0 and its length unchanged, and returns the `int64` sum of the
remaining values divided by `len(values)`: their sum divided by `len(values)`
when that sum lies in the `int64` range. -/
theorem C6_elapsed_time_accounting (dpre d : DWA) (vs : List Int) (t0 t : Int)
    (earlier : List Int) (n : Nat)
    (hr : Reachable dpre) (hadd : Add dpre vs t0 = some d)
    (hfull : (d.values.length : Int) = d.sampleSize) (hp : 0 < d.decayPeriod)
    (hsorted : List.Chain (· ≤ ·) t0 earlier) (hbefore : ∀ x ∈ earlier, x ≤ t)
    (ht : t0 ≤ t)
    (hn : (n : Int) = (t - t0) / d.decayPeriod) (hlt : n < d.values.length)
    (hoff : t = t0 ∨ (t - t0) % d.decayPeriod ≠ 0) :
    ∃ rs dmid d1, valueRun d earlier = some (rs, dmid) ∧
      Value dmid t = some (float64Div d1.sum d.values.length, d1) ∧
      d1.values = zeroSlots d.values d.idx.toNat n ∧
      d1.values.length = d.values.length ∧
      d1.sum = wrapInt64 d1.values.sum ∧
      (IsInt64 d1.values.sum →
        Value dmid t = some (float64Div d1.values.sum d.values.length, d1)) := by
  obtain ⟨d2, hadd2, hinv, _, _, hstamp, _⟩ := add_spec dpre vs t0 (reachable_inv dpre hr)
  rw [hadd] at hadd2
  cases hadd2
  have hbound : (t - d.lastUpdate) / d.decayPeriod < (d.values.length : Int) := by
    rw [hstamp, ← hn]
    omega
  obtain ⟨rs, dmid, zmid, hrun, hdmid, hle⟩ :=
    valueRun_decayed d hinv hfull hp t hbound earlier d 0 t0 (decayed_refl d hinv)
      (by omega) ht hsorted hbefore
  obtain ⟨d1, z1, hval, hd1, hle1, hgap⟩ :=
    value_decayed_step d dmid zmid t hinv hfull hp hdmid hle hbound
  have hstamp1 := hd1.stamp_eq
  rw [hstamp] at hstamp1
  have hz : z1 = n := by
    have hsplit : t - t0 = (t - d1.lastUpdate) + z1 * d.decayPeriod := by
      rw [hstamp1]
      ring
    rcases lt_or_eq_of_le hgap with hsmall | hedge
    · have hdiv : (t - t0) / d.decayPeriod = z1 := by
        rw [hsplit, Int.add_mul_ediv_right _ _ (ne_of_gt hp),
          Int.ediv_eq_zero_of_lt (by omega) hsmall]
        simp
      omega
    · exfalso
      have hmul : t - t0 = ((z1 : Int) + 1) * d.decayPeriod := by
        rw [hsplit, hedge]
        ring
      have hpos : 0 < ((z1 : Int) + 1) * d.decayPeriod := by positivity
      rcases hoff with heq | hrem
      · omega
      · apply hrem
        rw [hmul, Int.mul_emod_left]
  subst hz
  have hsum := hd1.inv.sum_eq
  refine ⟨rs, dmid, d1, hrun, hval, hd1.values_eq, ?_, hsum, fun hfit => ?_⟩
  · rw [hd1.values_eq, length_zeroSlots]
  · rw [hval, hsum, wrapInt64_of_isInt64 _ hfit]

/-- C6 on `TestValueDecay1`: after `Add(0, ..., 10)` at time 0 the buffer is
`[10, 6, 7, 8, 9]` with the cursor at 1; after a read at time 15, the read at
time 37 (`n = 3`) leaves `[10, 0, 0, 0, 9]` and returns `19 / 5`. -/
theorem C6_elapsed_time_accounting_witness :
    ∃ rs dmid d1, valueRun ⟨0, 10, 1, 5, [10, 6, 7, 8, 9], 40⟩ [15] = some (rs, dmid) ∧
      Value dmid 37 = some (float64Div d1.sum 5, d1) ∧
      d1.values = zeroSlots [10, 6, 7, 8, 9] 1 3 ∧
      d1.values.length = 5 ∧
      d1.sum = wrapInt64 d1.values.sum ∧
      (IsInt64 d1.values.sum → Value dmid 37 = some (float64Div d1.values.sum 5, d1)) :=
  C6_elapsed_time_accounting ⟨0, 10, 0, 5, [], 0⟩ ⟨0, 10, 1, 5, [10, 6, 7, 8, 9], 40⟩
    [0, 1, 2, 3, 4, 5, 6, 7, 8, 9, 10] 0 37 [15] 3
    (Reachable.new maxAlloc64 5 10 _ rfl) (by decide) (by decide) (by decide)
    (List.Chain.cons (by decide) List.Chain.nil) (by decide) (by decide) (by decide)
    (by decide) (Or.inr (by decide))

/-- C7.  On every state with a non-empty buffer, if `decayPeriod = 0` (whatever
time has passed) or `now - lastUpdate ≤ decayPeriod` (the boundary included),
`Value` returns `sum / len(values)` and leaves the state as it was. -/
theorem C7_no_decay_is_pure_read (d : DWA) (now : Int) (hne : d.values ≠ [])
    (h : d.decayPeriod = 0 ∨ now - d.lastUpdate ≤ d.decayPeriod) :
    Value d now = some (float64Div d.sum d.values.length, d) :=
  value_no_decay d now hne (by omega)

/-- C7 on the boundary: the buffer of `ExampleNewDWA` read exactly one decay
period after the `Add`. -/
theorem C7_no_decay_is_pure_read_witness :
    Value ⟨0, 10, 2, 5, [6, 7, 3, 4, 5], 25⟩ 10 =
      some (float64Div 25 5, ⟨0, 10, 2, 5, [6, 7, 3, 4, 5], 25⟩) :=
  C7_no_decay_is_pure_read ⟨0, 10, 2, 5, [6, 7, 3, 4, 5], 25⟩ 10
    (by decide) (Or.inr (by decide))

/-- C8.  In every reachable state `sum` is the `int64` sum of the values in the
buffer: it is congruent to their integer sum modulo `2 ^ 64`, and equal to it
whenever that integer sum lies in the `int64` range. -/
theorem C8_sum_invariant (d : DWA) (hr : Reachable d) :
    d.sum = wrapInt64 d.values.sum ∧
      d.sum % 2 ^ 64 = d.values.sum % 2 ^ 64 ∧
      (IsInt64 d.values.sum → d.sum = d.values.sum) := by
  have h := (reachable_inv d hr).sum_eq
  refine ⟨h, ?_, fun hfit => ?_⟩
  · rw [h, wrapInt64_emod]
  · rw [h, wrapInt64_of_isInt64 _ hfit]

/-- C8 on the state `ExampleNewDWA` reaches after its second read. -/
theorem C8_sum_invariant_witness :
    ∃ d0 d1 d2 : DWA, NewDWA maxAlloc64 5 10 = Except.ok d0 ∧
      Add d0 [1, 2, 3, 4, 5, 6, 7] 0 = some d1 ∧
      Value d1 15 = some (float64Div 22 5, d2) ∧
      d2.values = [6, 7, 0, 4, 5] ∧
      (d2.sum = wrapInt64 d2.values.sum ∧
        d2.sum % 2 ^ 64 = d2.values.sum % 2 ^ 64 ∧
        (IsInt64 d2.values.sum → d2.sum = d2.values.sum)) :=
  ⟨⟨0, 10, 0, 5, [], 0⟩, ⟨0, 10, 2, 5, [6, 7, 3, 4, 5], 25⟩,
    ⟨10, 10, 3, 5, [6, 7, 0, 4, 5], 22⟩, rfl, by decide, rfl, rfl,
    C8_sum_invariant ⟨10, 10, 3, 5, [6, 7, 0, 4, 5], 22⟩
      (Reachable.value ⟨0, 10, 2, 5, [6, 7, 3, 4, 5], 25⟩ _ 15 (float64Div 22 5)
        (Reachable.add ⟨0, 10, 0, 5, [], 0⟩ _ [1, 2, 3, 4, 5, 6, 7] 0
          (Reachable.new maxAlloc64 5 10 _ rfl) (by decide))
        rfl)⟩

/-- C9, the claim as stated fails on a valid configuration whose slice `make`
refuses: `NewDWA(math.MaxInt64, 0)` has a positive sample size and a decay
period that is not negative, and panics with `makeslice: cap out of range`, on
64-bit Linux and for every value of the runtime's `maxAlloc`. -/
theorem C9_counterexample :
    NewDWA maxAlloc64 9223372036854775807 0 =
        Except.error "makeslice: cap out of range" ∧
      ¬ ((9223372036854775807 : Int) < 1 ∨ (0 : Int) < 0) ∧
      (∀ maxAlloc : Nat, NewDWA maxAlloc 9223372036854775807 0 =
        Except.error "makeslice: cap out of range") := by
  refine ⟨by rfl, by decide, fun maxAlloc => ?_⟩
  unfold NewDWA makeslice
  rw [if_neg (by decide), if_neg (by decide), if_pos (Or.inr (Or.inl (by decide)))]

/-- C9 (amended: the allocation of the slice can panic too).
`NewDWA(sampleSize, decayPeriod)` panics exactly when `sampleSize < 1`, or
`decayPeriod < 0`, or `make` refuses the capacity (`8 * sampleSize` bytes do not
fit a `uintptr` or exceed the runtime's `maxAlloc`); otherwise it returns the
state with the given `sampleSize` and `decayPeriod`, an empty buffer, cursor 0,
sum 0 and the zero `lastUpdate`. -/
theorem C9_construction (maxAlloc : Nat) (sampleSize decayPeriod : Int) :
    ((∃ msg, NewDWA maxAlloc sampleSize decayPeriod = Except.error msg) ↔
        (sampleSize < 1 ∨ decayPeriod < 0 ∨ 2 ^ 64 ≤ 8 * sampleSize ∨
          (maxAlloc : Int) < 8 * sampleSize)) ∧
      (∀ d, NewDWA maxAlloc sampleSize decayPeriod = Except.ok d ↔
        (1 ≤ sampleSize ∧ 0 ≤ decayPeriod ∧ 8 * sampleSize < 2 ^ 64 ∧
          8 * sampleSize ≤ (maxAlloc : Int) ∧
          d = { lastUpdate := 0
                decayPeriod := decayPeriod
                idx := 0
                sampleSize := sampleSize
                values := []
                sum := 0 })) := by
  refine ⟨?_, fun d => newDWA_ok maxAlloc sampleSize decayPeriod d⟩
  constructor
  · rintro ⟨msg, hmsg⟩
    by_contra hnot
    have hok := (newDWA_ok maxAlloc sampleSize decayPeriod
      ⟨0, decayPeriod, 0, sampleSize, [], 0⟩).mpr
      ⟨by omega, by omega, by omega, by omega, rfl⟩
    rw [hok] at hmsg
    cases hmsg
  · intro hbad
    cases hrun : NewDWA maxAlloc sampleSize decayPeriod with
    | error msg => exact ⟨msg, rfl⟩
    | ok d =>
      have := (newDWA_ok maxAlloc sampleSize decayPeriod d).mp hrun
      omega

/-- C10.  On every state whose buffer is empty, `Value` at any read time returns
0 and leaves the state as it was; hence every sequence of `Value` reads with no
`Add` in between, started in such a state (a fresh one, or one a `Value` call
has just cleared), returns 0 at each read and ends in that same state. -/
theorem C10_empty_buffer_reads (d : DWA) (h : d.values = []) :
    (∀ now, Value d now = some (0, d)) ∧
      (∀ nows, valueRun d nows = some (List.replicate nows.length 0, d)) := by
  refine ⟨fun now => value_empty d now h, fun nows => ?_⟩
  induction nows with
  | nil => rfl
  | cons t rest ih =>
    rw [valueRun, value_empty d t h]
    simp [ih, List.replicate_succ]

/-- C10 on the state the last read of `TestValueDecay1` leaves behind. -/
theorem C10_empty_buffer_reads_witness :
    Value ⟨30, 10, 4, 5, [10, 0, 0, 0, 9], 19⟩ 97 = some (0, ⟨30, 10, 0, 5, [], 0⟩) ∧
      (∀ now, Value ⟨30, 10, 0, 5, [], 0⟩ now = some (0, ⟨30, 10, 0, 5, [], 0⟩)) ∧
      (∀ nows, valueRun ⟨30, 10, 0, 5, [], 0⟩ nows =
        some (List.replicate nows.length 0, ⟨30, 10, 0, 5, [], 0⟩)) :=
  ⟨by rfl, C10_empty_buffer_reads ⟨30, 10, 0, 5, [], 0⟩ rfl⟩

/-- C11.  For every reachable state whose buffer is full and every read time
at which `Value` zeroes `n ≥ 1` slots without a full reset (decay is due and
`n = floor(elapsed / decayPeriod) ≤ len(values)`), `Value` returns and
`lastUpdate` afterwards is `lastUpdate` before plus exactly `n * decayPeriod`:
the code stores that sum, not the read time, and the two coincide only when
`elapsed` is an exact multiple of `decayPeriod`.  The leftover
`now - lastUpdate'` is `elapsed mod decayPeriod` and lies in
`0 .. decayPeriod - 1`. -/
theorem C11_remainder_preserving_timestamp (d : DWA) (now : Int) (n : Nat)
    (hr : Reachable d) (hfull : (d.values.length : Int) = d.sampleSize)
    (hp : 0 < d.decayPeriod) (hdue : d.decayPeriod < now - d.lastUpdate)
    (hn : (n : Int) = (now - d.lastUpdate) / d.decayPeriod)
    (hle : n ≤ d.values.length) :
    ∃ d1, Value d now = some (float64Div d1.sum d.values.length, d1) ∧
      1 ≤ n ∧
      d1.lastUpdate = d.lastUpdate + n * d.decayPeriod ∧
      now - d1.lastUpdate = (now - d.lastUpdate) % d.decayPeriod ∧
      0 ≤ now - d1.lastUpdate ∧ now - d1.lastUpdate < d.decayPeriod ∧
      (d1.lastUpdate = now ↔ (now - d.lastUpdate) % d.decayPeriod = 0) := by
  have hinv := reachable_inv d hr
  obtain ⟨d1, hval, _, _, _, hstamp, _⟩ :=
    value_full_decay d now n hinv hfull hp (by omega) hn hle
  have h1 := elapsed_div_pos d now hp (by omega)
  have hmod : now - d1.lastUpdate = (now - d.lastUpdate) % d.decayPeriod := by
    rw [hstamp, Int.emod_def, hn]
    ring
  have hmod0 := Int.emod_nonneg (now - d.lastUpdate) (ne_of_gt hp)
  have hmod1 := Int.emod_lt_of_pos (now - d.lastUpdate) hp
  refine ⟨d1, hval, by omega, hstamp, hmod, by omega, by omega, ?_⟩
  constructor
  · intro heq
    rw [← hmod, heq]
    simp
  · intro hzero
    rw [hzero] at hmod
    omega

/-- C11 on the second read of `TestValueDecay1`: with `lastUpdate = 10`, a read
at time 37 zeroes 2 slots, moves `lastUpdate` to 30 and keeps the leftover 7. -/
theorem C11_remainder_preserving_timestamp_witness :
    ∃ d1, Value ⟨10, 10, 2, 5, [10, 0, 7, 8, 9], 34⟩ 37 = some (float64Div d1.sum 5, d1) ∧
      1 ≤ 2 ∧
      d1.lastUpdate = 10 + (2 : Nat) * 10 ∧
      37 - d1.lastUpdate = (37 - 10) % 10 ∧
      0 ≤ 37 - d1.lastUpdate ∧ 37 - d1.lastUpdate < 10 ∧
      (d1.lastUpdate = 37 ↔ ((37 : Int) - 10) % 10 = 0) :=
  C11_remainder_preserving_timestamp ⟨10, 10, 2, 5, [10, 0, 7, 8, 9], 34⟩ 37 2
    (Reachable.value ⟨0, 10, 1, 5, [10, 6, 7, 8, 9], 40⟩ _ 15 (float64Div 34 5)
      (Reachable.add ⟨0, 10, 0, 5, [], 0⟩ _ [0, 1, 2, 3, 4, 5, 6, 7, 8, 9, 10] 0
        (Reachable.new maxAlloc64 5 10 _ rfl) (by decide))
      (by rfl))
    (by decide) (by decide) (by decide) (by decide) (by decide)

/-- C12.  For every reachable state and every list of integers (the empty list
included), `Add` returns, in a reachable state.  At every iteration of its loop
the modulus `sampleSize` is not zero, and the iteration either appends or
overwrites a slot `idx % sampleSize` that lies inside the current length of the
buffer. -/
theorem C12_add_never_fails (d : DWA) (vs : List Int) (now : Int) (hr : Reachable d) :
    ∃ d1, Add d vs now = some d1 ∧ Reachable d1 ∧
      ∀ pre v post, vs = pre ++ v :: post →
        ∃ dm, pre.foldlM addValue d = some dm ∧ dm.sampleSize ≠ 0 ∧
          ((dm.idx < dm.sampleSize ∧ (dm.values.length : Int) ≤ dm.idx) ∨
            (0 ≤ Int.tmod dm.idx dm.sampleSize ∧
              Int.tmod dm.idx dm.sampleSize < (dm.values.length : Int))) := by
  have hinv := reachable_inv d hr
  obtain ⟨d1, hadd, _⟩ := add_spec d vs now hinv
  refine ⟨d1, hadd, Reachable.add d d1 vs now hr hadd, fun pre v post _ => ?_⟩
  obtain ⟨dm, hpre, hinvm, _⟩ := foldlM_addValue_spec pre d hinv
  have hc := hinvm.size_pos
  refine ⟨dm, hpre, by omega, ?_⟩
  rcases lt_or_eq_of_le hinvm.len_le with hlt | hfull
  · have hi := hinvm.idx_filling hlt
    exact Or.inl ⟨by omega, by omega⟩
  · obtain ⟨hs, ht⟩ := slot_lt dm hinvm hfull
    rw [ht]
    exact Or.inr ⟨by omega, by omega⟩

/-- C12 on `ExampleNewDWA`: `Add(1, ..., 7)` on a fresh window of 5 returns,
and so does the empty `Add`. -/
theorem C12_add_never_fails_witness :
    (∃ d1, Add ⟨0, 10, 0, 5, [], 0⟩ [1, 2, 3, 4, 5, 6, 7] 0 = some d1 ∧ Reachable d1 ∧
      ∀ pre v post, [1, 2, 3, 4, 5, 6, 7] = pre ++ v :: post →
        ∃ dm, pre.foldlM addValue ⟨0, 10, 0, 5, [], 0⟩ = some dm ∧ dm.sampleSize ≠ 0 ∧
          ((dm.idx < dm.sampleSize ∧ (dm.values.length : Int) ≤ dm.idx) ∨
            (0 ≤ Int.tmod dm.idx dm.sampleSize ∧
              Int.tmod dm.idx dm.sampleSize < (dm.values.length : Int)))) ∧
      Add ⟨0, 10, 0, 5, [], 0⟩ [] 3 = some ⟨3, 10, 0, 5, [], 0⟩ :=
  ⟨C12_add_never_fails ⟨0, 10, 0, 5, [], 0⟩ [1, 2, 3, 4, 5, 6, 7] 0
    (Reachable.new maxAlloc64 5 10 _ rfl), rfl⟩

/-- C13.  In every reachable state `0 ≤ len(values) ≤ sampleSize` and
`0 ≤ idx ≤ sampleSize`; while the buffer is not full the cursor equals
`len(values)`, and when it is full the cursor lies in `1 .. sampleSize`. -/
theorem C13_shape_invariant (d : DWA) (hr : Reachable d) :
    0 ≤ (d.values.length : Int) ∧ (d.values.length : Int) ≤ d.sampleSize ∧
      0 ≤ d.idx ∧ d.idx ≤ d.sampleSize ∧
      ((d.values.length : Int) < d.sampleSize → d.idx = d.values.length) ∧
      ((d.values.length : Int) = d.sampleSize → 1 ≤ d.idx ∧ d.idx ≤ d.sampleSize) := by
  have h := reachable_inv d hr
  have h1 := h.len_le
  have h2 := h.idx_filling
  have h3 := h.idx_full
  refine ⟨by omega, h1, ?_, ?_, h2, h3⟩
  · rcases lt_or_eq_of_le h1 with hlt | heq
    · have := h2 hlt
      omega
    · have := h3 heq
      omega
  · rcases lt_or_eq_of_le h1 with hlt | heq
    · have := h2 hlt
      omega
    · exact (h3 heq).2

/-- C13 on the state `ExampleNewDWA` reaches after its second read: a full
buffer of 5 with the cursor at 3. -/
theorem C13_shape_invariant_witness :
    ∃ d0 d1 d2 : DWA, NewDWA maxAlloc64 5 10 = Except.ok d0 ∧
      Add d0 [1, 2, 3, 4, 5, 6, 7] 0 = some d1 ∧
      Value d1 15 = some (float64Div 22 5, d2) ∧
      d2.values = [6, 7, 0, 4, 5] ∧ d2.idx = 3 ∧ d2.sampleSize = 5 ∧
      (0 ≤ (d2.values.length : Int) ∧ (d2.values.length : Int) ≤ d2.sampleSize ∧
        0 ≤ d2.idx ∧ d2.idx ≤ d2.sampleSize ∧
        ((d2.values.length : Int) < d2.sampleSize → d2.idx = d2.values.length) ∧
        ((d2.values.length : Int) = d2.sampleSize → 1 ≤ d2.idx ∧ d2.idx ≤ d2.sampleSize)) :=
  ⟨⟨0, 10, 0, 5, [], 0⟩, ⟨0, 10, 2, 5, [6, 7, 3, 4, 5], 25⟩,
    ⟨10, 10, 3, 5, [6, 7, 0, 4, 5], 22⟩, rfl, by decide, rfl, rfl, rfl, rfl,
    C13_shape_invariant ⟨10, 10, 3, 5, [6, 7, 0, 4, 5], 22⟩
      (Reachable.value ⟨0, 10, 2, 5, [6, 7, 3, 4, 5], 25⟩ _ 15 (float64Div 22 5)
        (Reachable.add ⟨0, 10, 0, 5, [], 0⟩ _ [1, 2, 3, 4, 5, 6, 7] 0
          (Reachable.new maxAlloc64 5 10 _ rfl) (by decide))
        rfl)⟩

/-- C14.  On every reachable state the code's `Add` of one value is the rule of
the specification `addValueSpec`: the guard
`idx < sampleSize && len(values) <= idx` holds exactly when
`len(values) < sampleSize`.  In that case the value is appended (the length
grows by one, `sum += v`, the cursor advances by one); otherwise the slot
`idx mod sampleSize`, which lies inside the buffer, takes the value, every
other slot and the length are unchanged, `sum` loses the old value of the slot
and gains `v`, and the cursor becomes that slot index plus one.  `+=` and `-=`
are the `int64` operations. -/
theorem C14_add_append_then_overwrite (d : DWA) (v : Int) (hr : Reachable d) :
    addValue d v = some (addValueSpec d v) ∧
      ((d.idx < d.sampleSize ∧ (d.values.length : Int) ≤ d.idx) ↔
        (d.values.length : Int) < d.sampleSize) ∧
      ((addValueSpec d v).values.length = d.values.length + 1 ↔
        (d.values.length : Int) < d.sampleSize) ∧
      ((d.values.length : Int) < d.sampleSize →
        (addValueSpec d v).values = d.values ++ [v] ∧
        (addValueSpec d v).sum = wrapInt64 (d.sum + v) ∧
        (addValueSpec d v).idx = d.idx + 1) ∧
      (¬ (d.values.length : Int) < d.sampleSize →
        (d.idx % d.sampleSize).toNat < d.values.length ∧
        (addValueSpec d v).values.length = d.values.length ∧
        (addValueSpec d v).values.getD (d.idx % d.sampleSize).toNat 0 = v ∧
        (∀ j, j ≠ (d.idx % d.sampleSize).toNat →
          (addValueSpec d v).values.getD j 0 = d.values.getD j 0) ∧
        (addValueSpec d v).sum =
          wrapInt64 (wrapInt64 (d.sum - d.values.getD (d.idx % d.sampleSize).toNat 0) + v) ∧
        (addValueSpec d v).idx = ((d.idx % d.sampleSize).toNat : Int) + 1) := by
  have hinv := reachable_inv d hr
  have hc := hinv.size_pos
  rcases lt_or_eq_of_le hinv.len_le with hlt | hfull
  · have hi := hinv.idx_filling hlt
    have hspec : addValueSpec d v = { d with
        values := d.values ++ [v]
        sum := wrapInt64 (d.sum + v)
        idx := d.idx + 1 } := by
      unfold addValueSpec
      rw [if_pos hlt]
    refine ⟨?_, ?_, ?_, ?_, ?_⟩
    · rw [addValue_append d v hinv hlt, hspec]
    · exact ⟨fun _ => hlt, fun _ => ⟨by omega, by omega⟩⟩
    · rw [hspec]
      simp [hlt]
    · intro _
      rw [hspec]
      exact ⟨rfl, rfl, rfl⟩
    · intro hnot
      exact absurd hlt hnot
  · obtain ⟨h1, h2⟩ := hinv.idx_full hfull
    obtain ⟨hs, ht⟩ := slot_lt d hinv hfull
    have hnot : ¬ (d.values.length : Int) < d.sampleSize := by omega
    have hmod : (d.idx % d.sampleSize).toNat = slot d := by
      unfold slot
      rw [Int.tmod_eq_emod (by omega) (by omega)]
    have hspec : addValueSpec d v = { d with
        sum := wrapInt64 (wrapInt64 (d.sum - d.values.getD (slot d) 0) + v)
        values := d.values.set (slot d) v
        idx := (slot d : Int) + 1 } := by
      unfold addValueSpec
      rw [if_neg hnot, hmod]
    refine ⟨?_, ?_, ?_, ?_, ?_⟩
    · rw [addValue_overwrite d v hinv hfull, hspec, wrapInt64_add_left]
    · exact ⟨fun hguard => by omega, fun hlt => absurd hlt hnot⟩
    · rw [hspec]
      simp only [List.length_set]
      constructor
      · intro habs
        omega
      · intro hlt
        exact absurd hlt hnot
    · intro hlt
      exact absurd hlt hnot
    · intro _
      rw [hmod, hspec]
      refine ⟨hs, by simp, ?_, ?_, rfl, rfl⟩
      · simp only [List.getD_eq_getElem?_getD, List.getElem?_set]
        simp [hs]
      · intro j hj
        simp only [List.getD_eq_getElem?_getD, List.getElem?_set]
        rw [if_neg (fun h => hj h.symm)]

/-- C14 on the full buffer `[6, 2, 3, 4, 5]` with the cursor at 1: adding 7
overwrites slot 1 and leaves the cursor at 2. -/
theorem C14_add_append_then_overwrite_witness :
    addValue ⟨0, 10, 1, 5, [6, 2, 3, 4, 5], 20⟩ 7 =
        some ⟨0, 10, 2, 5, [6, 7, 3, 4, 5], 25⟩ ∧
      addValueSpec ⟨0, 10, 1, 5, [6, 2, 3, 4, 5], 20⟩ 7 =
        ⟨0, 10, 2, 5, [6, 7, 3, 4, 5], 25⟩ ∧
      addValue ⟨0, 10, 1, 5, [6, 2, 3, 4, 5], 20⟩ 7 =
        some (addValueSpec ⟨0, 10, 1, 5, [6, 2, 3, 4, 5], 20⟩ 7) :=
  ⟨by decide, by decide,
    (C14_add_append_then_overwrite ⟨0, 10, 1, 5, [6, 2, 3, 4, 5], 20⟩ 7
      (Reachable.add ⟨0, 10, 0, 5, [], 0⟩ _ [1, 2, 3, 4, 5, 6] 0
        (Reachable.new maxAlloc64 5 10 _ rfl) (by decide))).1⟩

/-- C15, the claim as stated fails at a read of a window that is being
refilled.  After
`NewDWA(2, 10)` and `Add(1, 2)` at time 0, a read at time 35 has `n = 3 > 2`:
`Value` clears the buffer and returns 0, while zeroing three slots one at a
time keeps the buffer `[0, 0]` and also returns 0.  After `Add(4)` at time 35,
a read at time 35 returns `4 / 1` from the cleared buffer and `4 / 2` from the
zeroed one. -/
theorem C15_counterexample :
    ∃ d0 d1 dr ds : DWA, NewDWA maxAlloc64 2 10 = Except.ok d0 ∧ Add d0 [1, 2] 0 = some d1 ∧
      (d1.values.length : Int) = d1.sampleSize ∧
      (d1.values.length : Int) < (35 - d1.lastUpdate) / d1.decayPeriod ∧
      Value d1 35 = some (0, dr) ∧ dr.values = [] ∧
      valueBySlots d1 35 = some (float64Div 0 2, ds) ∧ ds.values = [0, 0] ∧
      ds.lastUpdate = 30 ∧
      (∃ dr1, callRun dr [Call.add [4] 35, Call.value 35] =
        some ([float64Div 4 1], dr1)) ∧
      (∃ ds1, callRun ds [Call.add [4] 35, Call.value 35] =
        some ([float64Div 4 2], ds1)) ∧
      float64Div 4 1 ≠ float64Div 4 2 :=
  ⟨⟨0, 10, 0, 2, [], 0⟩, ⟨0, 10, 2, 2, [1, 2], 3⟩, ⟨0, 10, 0, 2, [], 0⟩,
    ⟨30, 10, 1, 2, [0, 0], 0⟩, rfl, by decide, by decide, by decide, by rfl, rfl,
    by rfl, rfl, rfl, ⟨⟨35, 10, 1, 2, [4], 4⟩, by rfl⟩,
    ⟨⟨35, 10, 2, 2, [0, 4], 4⟩, by rfl⟩, by norm_num [float64Div]⟩

/-- C15 (amended: outside reads of a window that is being refilled).  For every
reachable state whose buffer is full and every read time with
`n = floor(elapsed / decayPeriod) > len(values)`, the `Value` call, which takes
the reset branch, returns the same number, 0, as it would if it had instead
zeroed `n` slots one at a time (keeping the buffer length and advancing
`lastUpdate` by `n * decayPeriod`); so does every later run of `Value` calls;
and so does every later sequence of `Add` and `Value` calls in which no `Value`
call is made while the window is being refilled, that is, after the `Add` calls
that follow have brought a first value and before they have brought
`sampleSize` values in total: the two runs return the same numbers and fail at
the same calls (every prefix of such a sequence is such a sequence). -/
theorem C15_reset_equals_zeroing_outside_refill (d : DWA) (now : Int) (n : Nat)
    (hr : Reachable d) (hfull : (d.values.length : Int) = d.sampleSize)
    (hp : 0 < d.decayPeriod) (hdue : d.decayPeriod < now - d.lastUpdate)
    (hn : (n : Int) = (now - d.lastUpdate) / d.decayPeriod)
    (hgt : d.values.length < n) :
    ∃ dr ds, Value d now = some (0, dr) ∧ dr.values = [] ∧
      valueBySlots d now = some (0, ds) ∧
      ds.values.length = d.values.length ∧
      ds.lastUpdate = d.lastUpdate + n * d.decayPeriod ∧
      (∀ nows, ∃ dr1 ds1,
        valueRun dr nows = some (List.replicate nows.length 0, dr1) ∧
        valueRun ds nows = some (List.replicate nows.length 0, ds1)) ∧
      (∀ calls, noReadWhileRefilling d.sampleSize 0 calls →
        (callRun dr calls).map Prod.fst = (callRun ds calls).map Prod.fst) := by
  have hinv := reachable_inv d hr
  have hc := hinv.size_pos
  have hne : d.values ≠ [] := by
    intro h0
    rw [h0] at hfull
    simp at hfull
    omega
  have hlate : d.lastUpdate + d.decayPeriod < now := by omega
  obtain ⟨d1, hloop, hinv1, hs1, hp1, hl1, hv1, _⟩ := decayLoop_full n d hinv hfull
  have hlen1 : d1.values.length = d.values.length := by rw [hv1, length_zeroSlots]
  have hzero1 : ∀ x ∈ d1.values, x = 0 := by
    rw [hv1]
    exact zeroSlots_of_length_le _ _ _ (by omega)
  have hallr : AllZero { d with values := [], sum := 0, idx := 0 } :=
    ⟨inv_reset d hinv, fun x hx => by simp at hx, Or.inl rfl⟩
  have halls : AllZero { d1 with lastUpdate := d1.lastUpdate + n * d1.decayPeriod } :=
    ⟨inv_of_lastUpdate d1 _ hinv1, hzero1, Or.inr (by simp only; omega)⟩
  have hsum1 : d1.sum = 0 :=
    allZero_sum { d1 with lastUpdate := d1.lastUpdate + n * d1.decayPeriod } halls
  have htrails : Trails { d with values := [], sum := 0, idx := 0 }
      { d1 with lastUpdate := d1.lastUpdate + n * d1.decayPeriod } := by
    refine ⟨hallr.inv, halls.inv, hs1, hp1, by simp only [List.length_nil]; omega,
      ⟨ringOrder { d1 with lastUpdate := d1.lastUpdate + n * d1.decayPeriod }, ?_, ?_⟩,
      Or.inl (by simp only; omega), fun hne0 => absurd rfl hne0⟩
    · intro x hx
      unfold ringOrder at hx
      exact hzero1 x (List.mem_rotate.mp hx)
    · rw [ringOrder_of_nil { d with values := [], sum := 0, idx := 0 } rfl, List.append_nil,
        lastN_of_length_le]
      rw [length_ringOrder]
      simp only
      omega
  refine ⟨_, { d1 with lastUpdate := d1.lastUpdate + n * d1.decayPeriod },
    value_reset d now hne hp hlate (by omega), rfl, ?_, hlen1, ?_, fun nows => ?_,
    fun calls hcalls => callRun_trails calls _ _ htrails hcalls⟩
  · unfold valueBySlots
    rw [if_neg (by simpa using hne), if_pos ⟨hp, hlate⟩]
    simp only [tdiv_elapsed d now hp hlate, ← hn, Int.toNat_ofNat, hloop, Option.map_some',
      hsum1, float64Div_zero]
  · simp only
    rw [hl1, hp1]
  · obtain ⟨dr1, hrunr, _⟩ := valueRun_allZero nows _ hallr
    obtain ⟨ds1, hruns, _⟩ := valueRun_allZero nows _ halls
    exact ⟨dr1, ds1, hrunr, hruns⟩

/-- C15 on the last read of `TestValueDecay1`: the buffer `[10, 0, 0, 0, 9]`
with `lastUpdate = 30`, read at time 97 (`n = 6 > 5`), followed by a read, an
empty `Add`, a refill of the window in two `Add` calls with no read in between,
and then reads and an `Add` at will: both runs return `0`, `14 / 5`, `7 / 5`. -/
theorem C15_reset_equals_zeroing_outside_refill_witness :
    ∃ dr ds, Value ⟨30, 10, 4, 5, [10, 0, 0, 0, 9], 19⟩ 97 = some (0, dr) ∧
      dr.values = [] ∧
      valueBySlots ⟨30, 10, 4, 5, [10, 0, 0, 0, 9], 19⟩ 97 = some (0, ds) ∧
      ds.values.length = 5 ∧
      ds.lastUpdate = 30 + (6 : Nat) * 10 ∧
      (∀ nows, ∃ dr1 ds1,
        valueRun dr nows = some (List.replicate nows.length 0, dr1) ∧
        valueRun ds nows = some (List.replicate nows.length 0, ds1)) ∧
      (∀ calls, noReadWhileRefilling 5 0 calls →
        (callRun dr calls).map Prod.fst = (callRun ds calls).map Prod.fst) ∧
      noReadWhileRefilling 5 0
        [Call.value 100, Call.add [] 110, Call.add [1, 2] 120, Call.add [3, 4, 5] 121,
          Call.value 140, Call.add [7] 150, Call.value 190] ∧
      (callRun ⟨30, 10, 0, 5, [], 0⟩
        [Call.value 100, Call.add [] 110, Call.add [1, 2] 120, Call.add [3, 4, 5] 121,
          Call.value 140, Call.add [7] 150, Call.value 190]).map Prod.fst =
        some [0, float64Div 14 5, float64Div 7 5] := by
  obtain ⟨dr, ds, h1, h2, h3, h4, h5, h6, h7⟩ :=
    C15_reset_equals_zeroing_outside_refill ⟨30, 10, 4, 5, [10, 0, 0, 0, 9], 19⟩ 97 6
      (Reachable.value ⟨10, 10, 2, 5, [10, 0, 7, 8, 9], 34⟩ _ 37 (float64Div 19 5)
        (Reachable.value ⟨0, 10, 1, 5, [10, 6, 7, 8, 9], 40⟩ _ 15 (float64Div 34 5)
          (Reachable.add ⟨0, 10, 0, 5, [], 0⟩ _ [0, 1, 2, 3, 4, 5, 6, 7, 8, 9, 10] 0
            (Reachable.new maxAlloc64 5 10 _ rfl) (by decide))
          (by rfl))
        (by rfl))
      (by decide) (by decide) (by decide) (by decide) (by decide)
  exact ⟨dr, ds, h1, h2, h3, h4, h5, h6, h7, by simp [noReadWhileRefilling], by rfl⟩

/-- C16, the claim as stated fails in two places.  With samples of both signs:
after `NewDWA(2, 10)` and `Add(-5, 5)` at time 0 the average is `0 / 2`, and a
read at time 15 zeroes the slot holding `-5` and returns `5 / 2`.  With samples
of one sign whose sum leaves the `int64` range: after `NewDWA(3, 10)` and
`Add(2^62, 2^62, 2^62)` the stored sum is `-2^62`, and a read at time 15 zeroes
one slot, leaves the stored sum `-2^63` and returns `-2^63 / 3`. -/
theorem C16_counterexample :
    (∃ d0 d1 d2 : DWA, NewDWA maxAlloc64 2 10 = Except.ok d0 ∧ Add d0 [-5, 5] 0 = some d1 ∧
      (d1.values.length : Int) = d1.sampleSize ∧ d1.sum = 0 ∧
      Value d1 15 = some (float64Div 5 2, d2) ∧ d2.values = [0, 5] ∧
      ¬ |float64Div 5 2| ≤ |float64Div d1.sum d1.values.length|) ∧
    (∃ d0 d1 d2 : DWA, NewDWA maxAlloc64 3 10 = Except.ok d0 ∧
      Add d0 [4611686018427387904, 4611686018427387904, 4611686018427387904] 0 = some d1 ∧
      (d1.values.length : Int) = d1.sampleSize ∧ d1.sum = -4611686018427387904 ∧
      Value d1 15 = some (float64Div (-9223372036854775808) 3, d2) ∧
      d2.values = [0, 4611686018427387904, 4611686018427387904] ∧
      ¬ |float64Div (-9223372036854775808) 3| ≤ |float64Div d1.sum d1.values.length|) :=
  ⟨⟨⟨0, 10, 0, 2, [], 0⟩, ⟨0, 10, 2, 2, [-5, 5], 0⟩, ⟨10, 10, 1, 2, [0, 5], 5⟩,
      rfl, by decide, by decide, rfl, by rfl, rfl, by norm_num [float64Div]⟩,
    ⟨⟨0, 10, 0, 3, [], 0⟩,
      ⟨0, 10, 3, 3, [4611686018427387904, 4611686018427387904, 4611686018427387904],
        -4611686018427387904⟩,
      ⟨10, 10, 1, 3, [0, 4611686018427387904, 4611686018427387904], -9223372036854775808⟩,
      rfl, by decide, by decide, rfl, by rfl, rfl,
      by norm_num [float64Div, abs_of_neg, abs_of_pos]⟩⟩

/-- C16 (amended: samples of one sign, their sum in the `int64` range).  For
every reachable state whose buffer is full and holds samples that are all
non-negative or all non-positive, with their sum in the `int64` range, and
every read time at which decay is due, `Value` returns, and the absolute value
of the returned average is at most the absolute value of the average before the
read, `sum / len(values)`. -/
theorem C16_decay_drags_toward_zero (d : DWA) (now : Int) (hr : Reachable d)
    (hfull : (d.values.length : Int) = d.sampleSize)
    (hp : 0 < d.decayPeriod) (hdue : d.decayPeriod < now - d.lastUpdate)
    (hsign : (∀ x ∈ d.values, 0 ≤ x) ∨ (∀ x ∈ d.values, x ≤ 0))
    (hfit : IsInt64 d.values.sum) :
    ∃ r d1, Value d now = some (r, d1) ∧
      |r| ≤ |float64Div d.sum d.values.length| := by
  have hinv := reachable_inv d hr
  have hc := hinv.size_pos
  have hne : d.values ≠ [] := by
    intro h0
    rw [h0] at hfull
    simp at hfull
    omega
  have h1 := elapsed_div_pos d now hp (by omega)
  by_cases hn : (d.values.length : Int) < (now - d.lastUpdate) / d.decayPeriod
  · refine ⟨0, _, value_reset d now hne hp (by omega) hn, ?_⟩
    rw [abs_zero]
    exact abs_nonneg _
  · obtain ⟨k, hk⟩ : ∃ k : Nat, (k : Int) = (now - d.lastUpdate) / d.decayPeriod :=
      ⟨((now - d.lastUpdate) / d.decayPeriod).toNat, by omega⟩
    obtain ⟨d1, hval, hinv1, _, _, _, hv, _⟩ :=
      value_full_decay d now k hinv hfull hp (by omega) hk (by omega)
    refine ⟨_, d1, hval, abs_float64Div_le _ _ _ ?_⟩
    have hsum : d.sum = d.values.sum := by
      rw [hinv.sum_eq, wrapInt64_of_isInt64 _ hfit]
    have hsum1 := hinv1.sum_eq
    rw [hv] at hsum1
    unfold IsInt64 at hfit
    rcases hsign with hpos | hneg
    · obtain ⟨hmem, hle⟩ := zeroSlots_nonneg d.values d.idx.toNat k hpos
      have h0 : 0 ≤ (zeroSlots d.values d.idx.toNat k).sum := List.sum_nonneg hmem
      rw [wrapInt64_of_isInt64 _ ⟨by omega, by omega⟩] at hsum1
      rw [hsum, hsum1, abs_of_nonneg h0, abs_of_nonneg (by omega)]
      exact hle
    · obtain ⟨hmem, hle⟩ := zeroSlots_nonpos d.values d.idx.toNat k hneg
      have h0 : (zeroSlots d.values d.idx.toNat k).sum ≤ 0 := sum_nonpos_int _ hmem
      rw [wrapInt64_of_isInt64 _ ⟨by omega, by omega⟩] at hsum1
      rw [hsum, hsum1, abs_of_nonpos h0, abs_of_nonpos (by omega)]
      omega

/-- C16 on the second read of `ExampleNewDWA`: the average of
`[6, 7, 3, 4, 5]` is `25 / 5`, and the read at time 15 returns a number of
absolute value at most that. -/
theorem C16_decay_drags_toward_zero_witness :
    ∃ r d1, Value ⟨0, 10, 2, 5, [6, 7, 3, 4, 5], 25⟩ 15 = some (r, d1) ∧
      |r| ≤ |float64Div 25 5| :=
  C16_decay_drags_toward_zero ⟨0, 10, 2, 5, [6, 7, 3, 4, 5], 25⟩ 15
    (Reachable.add ⟨0, 10, 0, 5, [], 0⟩ _ [1, 2, 3, 4, 5, 6, 7] 0
      (Reachable.new maxAlloc64 5 10 _ rfl) (by decide))
    (by decide) (by decide) (by decide) (Or.inl (by decide)) (by decide)

/-- C17.  For every reachable state, every list `vs` and every call time `now`,
`Add(vs)` returns with `lastUpdate = now`; and for the empty list the call
changes nothing but `lastUpdate`: buffer, sum and cursor are as before. -/
theorem C17_add_stamps_once (d : DWA) (vs : List Int) (now : Int) (hr : Reachable d) :
    (∃ d1, Add d vs now = some d1 ∧ d1.lastUpdate = now) ∧
      Add d [] now = some
        { lastUpdate := now
          decayPeriod := d.decayPeriod
          idx := d.idx
          sampleSize := d.sampleSize
          values := d.values
          sum := d.sum } := by
  obtain ⟨d1, hadd, _, _, _, hstamp, _⟩ := add_spec d vs now (reachable_inv d hr)
  exact ⟨⟨d1, hadd, hstamp⟩, rfl⟩

/-- C17 on the buffer of `ExampleNewDWA`: an `Add` of three values at time 40
and an empty `Add` at time 40 both leave `lastUpdate = 40`; the empty one keeps
the buffer `[6, 7, 3, 4, 5]`, the sum 25 and the cursor 2. -/
theorem C17_add_stamps_once_witness :
    (∃ d1, Add ⟨0, 10, 2, 5, [6, 7, 3, 4, 5], 25⟩ [8, 9, 10] 40 = some d1 ∧
        d1.lastUpdate = 40) ∧
      Add ⟨0, 10, 2, 5, [6, 7, 3, 4, 5], 25⟩ [] 40 =
        some ⟨40, 10, 2, 5, [6, 7, 3, 4, 5], 25⟩ :=
  C17_add_stamps_once ⟨0, 10, 2, 5, [6, 7, 3, 4, 5], 25⟩ [8, 9, 10] 40
    (Reachable.add ⟨0, 10, 0, 5, [], 0⟩ _ [1, 2, 3, 4, 5, 6, 7] 0
      (Reachable.new maxAlloc64 5 10 _ rfl) (by decide))

/-- C18.  For every reachable state and every read time at which `Value`
returns, a second `Value` call at the same read time returns the same number
and leaves the state the first call produced unchanged. -/
theorem C18_value_idempotent_at_fixed_instant (d d1 : DWA) (now : Int) (r : ℚ)
    (hr : Reachable d) (hrun : Value d now = some (r, d1)) :
    Value d1 now = some (r, d1) := by
  have hinv := reachable_inv d hr
  by_cases hne : d.values = []
  · rw [value_empty d now hne] at hrun
    cases hrun
    exact value_empty d now hne
  by_cases hdue : 0 < d.decayPeriod ∧ d.lastUpdate + d.decayPeriod < now
  · obtain ⟨hp, hlate⟩ := hdue
    have h1 := elapsed_div_pos d now hp hlate
    by_cases hn : (d.values.length : Int) < (now - d.lastUpdate) / d.decayPeriod
    · rw [value_reset d now hne hp hlate hn] at hrun
      cases hrun
      exact value_empty _ now rfl
    · rcases lt_or_eq_of_le hinv.len_le with hlt | hfull
      · rw [value_decay d now hne hp hlate (by omega),
          decayLoop_not_full _ d hinv hlt (by omega)] at hrun
        cases hrun
      · obtain ⟨k, hk⟩ : ∃ k : Nat, (k : Int) = (now - d.lastUpdate) / d.decayPeriod :=
          ⟨((now - d.lastUpdate) / d.decayPeriod).toNat, by omega⟩
        obtain ⟨d2, hval, _, _, hp2, hstamp, hv, _⟩ :=
          value_full_decay d now k hinv hfull hp hlate hk (by omega)
        rw [hval] at hrun
        cases hrun
        have hlen : d1.values.length = d.values.length := by rw [hv, length_zeroSlots]
        have hne1 : d1.values ≠ [] := by
          intro h0
          apply hne
          have : d.values.length = 0 := by rw [← hlen, h0]; rfl
          exact List.length_eq_zero.mp this
        have hmod : now - d1.lastUpdate = (now - d.lastUpdate) % d.decayPeriod := by
          rw [hstamp, Int.emod_def, hk]
          ring
        have hmod1 := Int.emod_lt_of_pos (now - d.lastUpdate) hp
        rw [value_no_decay d1 now hne1 (by omega), hlen]
  · rw [value_no_decay d now hne hdue] at hrun
    cases hrun
    exact value_no_decay d now hne hdue

/-- C18 on the second read of `ExampleNewDWA`: the read at time 15 zeroes a
slot and returns `22 / 5`; read again at time 15, the state it left returns
`22 / 5` and stays as it is. -/
theorem C18_value_idempotent_witness :
    Value ⟨0, 10, 2, 5, [6, 7, 3, 4, 5], 25⟩ 15 =
        some (float64Div 22 5, ⟨10, 10, 3, 5, [6, 7, 0, 4, 5], 22⟩) ∧
      Value ⟨10, 10, 3, 5, [6, 7, 0, 4, 5], 22⟩ 15 =
        some (float64Div 22 5, ⟨10, 10, 3, 5, [6, 7, 0, 4, 5], 22⟩) :=
  ⟨rfl, C18_value_idempotent_at_fixed_instant ⟨0, 10, 2, 5, [6, 7, 3, 4, 5], 25⟩
    ⟨10, 10, 3, 5, [6, 7, 0, 4, 5], 22⟩ 15 (float64Div 22 5)
    (Reachable.add ⟨0, 10, 0, 5, [], 0⟩ _ [1, 2, 3, 4, 5, 6, 7] 0
      (Reachable.new maxAlloc64 5 10 _ rfl) (by decide))
    rfl⟩

/-- C19.  For every reachable state, lists `xs` and `ys` and clock readings
`t1` and `t2`, `Add(xs)` at `t1` followed directly by `Add(ys)` at `t2` returns
and yields exactly the state (buffer, sum, cursor, `lastUpdate`) of the single
call `Add(xs ++ ys)` at `t2`. -/
theorem C19_batching_does_not_matter (d : DWA) (xs ys : List Int) (t1 t2 : Int)
    (hr : Reachable d) :
    ∃ d1 d2, Add d xs t1 = some d1 ∧ Add d1 ys t2 = some d2 ∧
      Add d (xs ++ ys) t2 = some d2 := by
  obtain ⟨d1, h1, hinv1, _⟩ := add_spec d xs t1 (reachable_inv d hr)
  obtain ⟨d2, h2, _⟩ := add_spec d1 ys t2 hinv1
  refine ⟨d1, d2, h1, h2, ?_⟩
  rw [← add_add d xs ys t1 t2, h1]
  exact h2

/-- C19 on a window of 5: `Add(1, 2, 3)` at time 0 then `Add(4, 5, 6, 7)` at
time 9 is `Add(1, ..., 7)` at time 9. -/
theorem C19_batching_does_not_matter_witness :
    ∃ d1 d2, Add ⟨0, 10, 0, 5, [], 0⟩ [1, 2, 3] 0 = some d1 ∧
      Add d1 [4, 5, 6, 7] 9 = some d2 ∧
      Add ⟨0, 10, 0, 5, [], 0⟩ ([1, 2, 3] ++ [4, 5, 6, 7]) 9 = some d2 :=
  C19_batching_does_not_matter ⟨0, 10, 0, 5, [], 0⟩ [1, 2, 3] [4, 5, 6, 7] 0 9
    (Reachable.new maxAlloc64 5 10 _ rfl)

end Dwa
